import Mathlib

/-!
Verification of the calibration-updater program (src/script.py).

The program is embedded shallowly:

* JSON documents (as produced by `json.load`) become the inductive type `Json`;
  Python dicts are association lists that keep insertion order, exactly as
  Python 3 dicts enumerate their keys.  Numbers are modelled as `Rat` (the
  program performs no arithmetic on them, it only stores and compares).
* The CSV file is modelled as its header row plus its list of data rows, the
  way `csv.DictReader` presents them: each data row becomes a Python dict by
  pairing the header with the row's cells (short rows padded with missing
  cells, `Option.none` for Python's `None` restval) and inserting the pairs
  in order, so a later duplicate header name overwrites the earlier value
  while the key keeps its first position — the behaviour of
  `dict(zip(fieldnames, row))` followed by the restval assignments.  Surplus
  cells sit under the `None` restkey, which the loader's `if region` guard
  never reads, so they are omitted.
* `float(...)` on a cell is a CPython builtin (underscored and non-ASCII
  digits, `inf`/`nan`, IEEE rounding); the loader takes it as an abstract
  parameter `flt : String → Option F` over an abstract value type,
  committing neither to which cells it accepts nor to the values it returns.
  `pyFloat` is the sample instantiation used for the concrete runs below; it
  agrees with `float()` on every cell those runs contain (plain ASCII
  decimal literals and non-numeric words such as `N/A`).
* `field in region_config` (line 141) is a key test on a dict, a membership
  test on a list, a substring test on a string, and a TypeError on other
  values; on a list or string a miss takes the warning branch of line 147
  and the loop continues, while a hit raises at the `region_config[field]`
  read of line 143.
* The in-place mutation performed by `update_config_with_calibration` is
  modelled twice: once as a pure function on `Json` values (used for the
  functional claims), and once over an explicit object store (`Store`) in
  which dicts are heap objects addressed by index, so that the
  "the original document object is never mutated" claim is a real statement
  about writes to the store.
* Warnings printed to stderr become `MergeWarning` values, the
  "Updated region.field: old -> new" lines become `ChangeRec` records, and a
  Python exception escaping the merge becomes `Except.error` with a `PyErr`.
-/

/-! ### Association lists with Python-dict semantics -/

/-- Key lookup in an insertion-ordered dict (first matching key wins;
`json.load` never produces duplicate keys, so this matches `d[k]`). -/
def getKey {α : Type} : List (String × α) → String → Option α
  | [], _ => none
  | kv :: rest, k => if kv.1 = k then some kv.2 else getKey rest k

/-- `d[k] = v` on a Python dict: overwrite the value in place if the key is
present (keeping its position), otherwise append the new key at the end. -/
def setKey {α : Type} : List (String × α) → String → α → List (String × α)
  | [], k, v => [(k, v)]
  | kv :: rest, k, v => if kv.1 = k then (k, v) :: rest else kv :: setKey rest k v

/-- The ordered key list of a dict (`list(d.keys())`). -/
def keysOf {α : Type} (kvs : List (String × α)) : List String := kvs.map Prod.fst

/-! ### Numeric cell parsing (`float(value)` in script.py line 102) -/

/-- Value of a digit string. -/
def digitsVal (cs : List Char) : Nat := cs.foldl (fun a c => a * 10 + (c.toNat - 48)) 0

/-- Strip leading and trailing whitespace (Python `str.strip()`); character
lists rather than `String.trim` keep the definition kernel-reducible. -/
def trimChars (cs : List Char) : List Char :=
  ((cs.dropWhile Char.isWhitespace).reverse.dropWhile Char.isWhitespace).reverse

/-- Split a character list at the first exponent marker `e`/`E`. -/
def splitAtExpChar : List Char → List Char × Option (List Char)
  | [] => ([], none)
  | c :: rest =>
    if c = 'e' ∨ c = 'E' then ([], some rest)
    else
      let p := splitAtExpChar rest
      (c :: p.1, p.2)

/-- Strip a leading sign, returning whether it was `-`. -/
def parseSign : List Char → Bool × List Char
  | '-' :: rest => (true, rest)
  | '+' :: rest => (false, rest)
  | cs => (false, cs)

/-- Unsigned mantissa: digits, optionally with a decimal point; at least one
digit overall (`1`, `1.`, `.5`, `1.25` are accepted, `N/A` or `.` are not). -/
def parseMantissa (cs : List Char) : Option Rat :=
  let ip := cs.takeWhile Char.isDigit
  let rest := cs.dropWhile Char.isDigit
  match rest with
  | [] => if ip.isEmpty then none else some ((digitsVal ip : Nat) : Rat)
  | '.' :: rest2 =>
    let fp := rest2.takeWhile Char.isDigit
    let rest3 := rest2.dropWhile Char.isDigit
    if !rest3.isEmpty then none
    else if ip.isEmpty && fp.isEmpty then none
    else some ((digitsVal ip : Rat) + (digitsVal fp : Rat) / ((10 : Rat) ^ fp.length))
  | _ => none

/-- Signed integer exponent after `e`/`E`. -/
def parseExpPart (cs : List Char) : Option Int :=
  let sg := parseSign cs
  if sg.2.isEmpty || !(sg.2.all Char.isDigit) then none
  else some (if sg.1 then -(digitsVal sg.2 : Int) else (digitsVal sg.2 : Int))

/-- A sample cell parser, used only to evaluate the concrete runs below:
plain ASCII decimal literals (optional surrounding whitespace, sign, digits
with optional fraction, optional decimal exponent).  CPython's `float()`
accepts more (underscored and non-ASCII digits, `inf`/`nan`) and returns
IEEE doubles, so the loader abstracts `float()` as its `flt` parameter and
this sample is only applied to cells on which it agrees with `float()`. -/
def pyFloat (s : String) : Option Rat :=
  let t := trimChars s.toList
  let sg := parseSign t
  let me := splitAtExpChar sg.2
  match parseMantissa me.1 with
  | none => none
  | some m =>
    let signed := if sg.1 then -m else m
    match me.2 with
    | none => some signed
    | some ecs =>
      match parseExpPart ecs with
      | none => none
      | some e => some (signed * (10 : Rat) ^ e)

/-! ### Calibration table loader (script.py `load_calibration_data`, lines 77-115) -/

/-- Build a Python dict from a sequence of key/value pairs by inserting them
in order (`d[k] = v` for each pair): a repeated key keeps its first position
and takes its last value, as in `dict(zip(...))`. -/
def dictOfPairs {α : Type} (l : List (String × α)) : List (String × α) :=
  l.foldl (fun d kv => setKey d kv.1 kv.2) []

/-- The row dict `csv.DictReader` yields for a data row: the header names
paired with the row's cells (missing cells filled with `none`, Python's
`None` restval) and inserted into a dict in order, so that with duplicate
header names the last cell wins while the key keeps its first position —
`dict(zip(fieldnames, row))` followed by the restval assignments. -/
def rowDict (header : List String) (cells : List String) : List (String × Option String) :=
  dictOfPairs (header.zip (cells.map some ++ List.replicate (header.length - cells.length) none))

/-- `row.get('', '')` (line 92): the cell under the empty-named column, with
the empty string as default when no such column exists. -/
def rowLabelOf (header : List String) (cells : List String) : Option String :=
  match getKey (rowDict header cells) "" with
  | some c => c
  | none => some ""

/-- The body of the cell loop (lines 96-105): a non-empty column header whose
cell is non-blank and is accepted by `flt` — the abstract `float(...)` — is
recorded into `region_data`; anything else leaves it untouched. -/
def recordCell {F : Type} (flt : String → Option F)
    (region_data : List (String × F)) (rv : String × Option String) :
    List (String × F) :=
  if rv.1 ≠ "" then
    match rv.2 with
    | some value =>
      if (trimChars value.toList).isEmpty then region_data
      else
        match flt value with
        | some x => setKey region_data rv.1 x
        | none => region_data
    | none => region_data
  else region_data

/-- The `region_data` dict built for one row (lines 95-105). -/
def regionDataOfRow {F : Type} (flt : String → Option F)
    (header : List String) (cells : List String) : List (String × F) :=
  (rowDict header cells).foldl (recordCell flt) []

/-- The body of the row loop (lines 90-109): build the row `region_data`
and store it under the row label when the label is truthy.  Note line 109
assigns `calibration_data[row_label] = region_data`, replacing any mapping a
previous row with the same label had stored. -/
def recordRow {F : Type} (flt : String → Option F) (header : List String)
    (calibration_data : List (String × List (String × F))) (cells : List String) :
    List (String × List (String × F)) :=
  match rowLabelOf header cells with
  | some label =>
    if label = "" then calibration_data
    else setKey calibration_data label (regionDataOfRow flt header cells)
  | none => calibration_data

/-- `load_calibration_data` (lines 77-115), generic in the abstract
`float(...)` parameter `flt`. -/
def load_calibration_data {F : Type} (flt : String → Option F)
    (header : List String) (rows : List (List String)) :
    List (String × List (String × F)) :=
  rows.foldl (recordRow flt header) []

/-- The calibration table as the merge consumes it, with the float values as
rationals (the merge performs no arithmetic on them, it only stores them). -/
abbrev Table := List (String × List (String × Rat))

/-! ### Merge engine (script.py `update_config_with_calibration`, lines 118-149) -/

/-- One `Updated region.field: old -> new` record (line 145), generic in the
value type so the pure and the store-based embeddings share it. -/
structure ChangeRec (V : Type) where
  region : String
  field : String
  old_value : V
  new_value : V
deriving DecidableEq

/-- The two warnings the merge prints to stderr (lines 129 and 147). -/
inductive MergeWarning where
  | noRegions
  | fieldNotFound (field : String) (region : String)
deriving DecidableEq

/-- A Python exception escaping the merge. -/
inductive PyErr where
  | typeError
  | attributeError
deriving DecidableEq

/-- The body of the inner loop (lines 135-147) for one selector `field`:
check the field in the table, the region in the field's data, and the field
in the region's configuration, then overwrite / warn / skip accordingly.
`mkNum` injects the float into the value type (the pure embedding uses
`Json.num`, the store embedding `HVal.num`). -/
def applyField {V : Type} (mkNum : Rat → V) (calibration_data : Table) (region_name : String)
    (st : List (String × V) × List (ChangeRec V) × List MergeWarning) (field : String) :
    List (String × V) × List (ChangeRec V) × List MergeWarning :=
  match getKey calibration_data field with
  | none => st
  | some fieldData =>
    match getKey fieldData region_name with
    | none => st
    | some new_value =>
      match getKey st.1 field with
      | some old_value =>
        (setKey st.1 field (mkNum new_value),
         st.2.1 ++ [⟨region_name, field, old_value, mkNum new_value⟩],
         st.2.2)
      | none => (st.1, st.2.1, st.2.2 ++ [.fieldNotFound field region_name])

/-- All selector fields applied to one region's configuration, in selector
order (the inner `for field in calibration_fields` loop). -/
def processRegion {V : Type} (mkNum : Rat → V) (calibration_data : Table)
    (region_name : String) (region_config : List (String × V))
    (calibration_fields : List String) :
    List (String × V) × List (ChangeRec V) × List MergeWarning :=
  calibration_fields.foldl (applyField mkNum calibration_data region_name)
    (region_config, [], [])

/-- Python `x in s` for strings: a substring test (the empty string is a
substring of every string). -/
def pyStrContains (s pat : String) : Bool :=
  pat = "" || (s.splitOn pat).length > 1

/-- The inner field loop (lines 135-147) over a region whose value is not a
dict.  A field without a table value for this region is skipped as usual
(lines 137-139); when the table does supply one, Python evaluates
`field in region_config` (line 141): a miss prints the line-147 warning and
the loop continues with the next field; a hit makes the `region_config[field]`
read on line 143 raise TypeError; and on a value that is no container the
`in` itself raises.  `contains` is the membership test of the region's value
(`none` where `in` raises). -/
def processFieldsNoMapping (calibration_data : Table) (region_name : String)
    (contains : String → Option Bool) :
    List String → Except PyErr (List MergeWarning)
  | [] => .ok []
  | field :: rest =>
    match getKey calibration_data field with
    | none => processFieldsNoMapping calibration_data region_name contains rest
    | some fieldData =>
      match getKey fieldData region_name with
      | none => processFieldsNoMapping calibration_data region_name contains rest
      | some _ =>
        match contains field with
        | some false =>
          match processFieldsNoMapping calibration_data region_name contains rest with
          | .ok ws => .ok (MergeWarning.fieldNotFound field region_name :: ws)
          | .error e => .error e
        | some true => .error .typeError
        | none => .error .typeError

/-- JSON values as loaded by `json.load`: objects keep key order, numbers are
rationals (no arithmetic is ever performed on them). -/
inductive Json where
  | obj : List (String × Json) → Json
  | arr : List Json → Json
  | num : Rat → Json
  | str : String → Json
  | bool : Bool → Json
  | null : Json

/-- Whether a JSON value is an object (a Python dict after `json.loads`). -/
def Json.isObjB : Json → Bool
  | .obj _ => true
  | _ => false

/-- Python `x in l` for a JSON list and a string `x`: `x == e` for some
element, which for a string `x` only string elements can satisfy. -/
def pyInList (es : List Json) (x : String) : Bool :=
  es.any fun e => match e with | .str s => s = x | _ => false

/-- Python `field in region_config` for a region value that is not a dict
(the dict case is handled by `applyField`; this function is only ever applied
to the other constructors): membership for a list, substring for a string,
and `none` — the `in` raises TypeError — for numbers, booleans and null. -/
def jsonNonMappingIn : Json → String → Option Bool
  | .arr es, field => some (pyInList es field)
  | .str s, field => some (pyStrContains s field)
  | _, _ => none

mutual
/-- `json.loads(json.dumps(config))` (line 125) seen at the value level: the
round-trip reproduces the document structurally (fresh objects, equal
content). -/
def deepCopy : Json → Json
  | .obj kvs => .obj (deepCopyKVs kvs)
  | .arr es => .arr (deepCopyArr es)
  | .num q => .num q
  | .str s => .str s
  | .bool b => .bool b
  | .null => .null

def deepCopyKVs : List (String × Json) → List (String × Json)
  | [] => []
  | kv :: rest => (kv.1, deepCopy kv.2) :: deepCopyKVs rest

def deepCopyArr : List Json → List Json
  | [] => []
  | e :: rest => deepCopy e :: deepCopyArr rest
end

/-- The outer `for region_name, region_config in updated_config['regions'].items()`
loop (line 133): process each region in order.  A region whose value is a
dict goes through the inner field loop (`processRegion`); any other value
goes through `processFieldsNoMapping` — a warning for each membership miss,
a TypeError the moment a membership test succeeds or the value is not a
container — and is returned unchanged when that walk completes. -/
def processRegions (calibration_data : Table) (calibration_fields : List String) :
    List (String × Json) →
    Except PyErr (List (String × Json) × List (ChangeRec Json) × List MergeWarning)
  | [] => .ok ([], [], [])
  | (region_name, rv) :: rest =>
    match rv with
    | .obj region_config =>
      let r := processRegion Json.num calibration_data region_name region_config
        calibration_fields
      match processRegions calibration_data calibration_fields rest with
      | .ok (rs, chs, ws) => .ok ((region_name, Json.obj r.1) :: rs, r.2.1 ++ chs, r.2.2 ++ ws)
      | .error e => .error e
    | _ =>
      match processFieldsNoMapping calibration_data region_name
          (jsonNonMappingIn rv) calibration_fields with
      | .ok wsr =>
        match processRegions calibration_data calibration_fields rest with
        | .ok (rs, chs, ws) => .ok ((region_name, rv) :: rs, chs, wsr ++ ws)
        | .error e => .error e
      | .error e => .error e

/-- `update_config_with_calibration` (lines 118-149) on document values.
The copy is taken first (line 125); `'regions' not in updated_config` is a
key test on a dict, a membership test on a list, a substring test on a string
and a `TypeError` on other top-level values; a present but non-dict `regions`
value raises at `.items()`. -/
def update_config_with_calibration (config : Json) (calibration_data : Table)
    (calibration_fields : List String) :
    Except PyErr (Json × List (ChangeRec Json) × List MergeWarning) :=
  let updated_config := deepCopy config
  match updated_config with
  | .obj kvs =>
    match getKey kvs "regions" with
    | none => .ok (.obj kvs, [], [.noRegions])
    | some (.obj regions) =>
      match processRegions calibration_data calibration_fields regions with
      | .ok (regions2, chs, ws) =>
        .ok (.obj (setKey kvs "regions" (.obj regions2)), chs, ws)
      | .error e => .error e
    | some _ => .error .attributeError
  | .arr es =>
    if pyInList es "regions" then .error .typeError
    else .ok (.arr es, [], [.noRegions])
  | .str s =>
    if pyStrContains s "regions" then .error .typeError
    else .ok (.str s, [], [.noRegions])
  | .num _ => .error .typeError
  | .bool _ => .error .typeError
  | .null => .error .typeError

/-! ### Object-store embedding of the merge (for the non-mutation claim)

Python dicts are mutable heap objects; `region_config[field] = new_value`
writes through a reference that is shared with `updated_config`.  To state
that the *original* document object is never altered we model dicts as store
cells addressed by index: `.ref a` points at the dict stored at position `a`.
Lists are never mutated by this program, so they are kept structural. -/

/-- A document value in the object store. -/
inductive HVal where
  | ref : Nat → HVal
  | arr : List HVal → HVal
  | num : Rat → HVal
  | str : String → HVal
  | bool : Bool → HVal
  | null : HVal

/-- A dict object: ordered key/value pairs. -/
abbrev HDict := List (String × HVal)

/-- The object store; an address is an index, allocation appends. -/
abbrev Store := List HDict

/-- Python `x in l` for a heap list and a string `x`: only string elements
can compare equal to a string (dicts behind references never do). -/
def pyInHList (vs : List HVal) (x : String) : Bool :=
  vs.any fun v => match v with | .str s => s = x | _ => false

/-- `field in region_config` for a non-dict region value in the store model
(a dict reference is handled by the main branch of `heapProcessRegions`;
this is only ever applied to the other constructors). -/
def hvalNonMappingIn : HVal → String → Option Bool
  | .arr vs, field => some (pyInHList vs field)
  | .str s, field => some (pyStrContains s field)
  | _, _ => none

mutual
/-- All references in a value point below `n`. -/
def refsBelow : HVal → Nat → Bool
  | .ref a, n => decide (a < n)
  | .arr vs, n => refsBelowList vs n
  | _, _ => true

def refsBelowList : List HVal → Nat → Bool
  | [], _ => true
  | v :: rest, n => refsBelow v n && refsBelowList rest n
end

mutual
/-- All references in a value point at or above `n`. -/
def refsAtLeast : HVal → Nat → Bool
  | .ref a, n => decide (n ≤ a)
  | .arr vs, n => refsAtLeastList vs n
  | _, _ => true

def refsAtLeastList : List HVal → Nat → Bool
  | [], _ => true
  | v :: rest, n => refsAtLeast v n && refsAtLeastList rest n
end

/-- All values of a dict have their references below `n`. -/
def dictRefsBelow (d : HDict) (n : Nat) : Bool := d.all fun kv => refsBelow kv.2 n

/-- All values of a dict have their references at or above `n`. -/
def dictRefsAtLeast (d : HDict) (n : Nat) : Bool := d.all fun kv => refsAtLeast kv.2 n

/-- The first `n` store cells only reference cells among the first `n`
(the part of the store holding the original document is self-contained). -/
def storeClosedBelow (st : Store) (n : Nat) : Bool :=
  (st.take n).all fun d => dictRefsBelow d n

/-- Every store cell from position `n` on only references cells from `n` on
(the freshly copied objects never point back into the original ones). -/
def storeTailAtLeast (st : Store) (n : Nat) : Prop :=
  ∀ d ∈ st.drop n, dictRefsAtLeast d n = true

/-- Read a value out of the store back into a document tree (what
`json.dumps` would serialise); `fuel` bounds the dereferencing depth. -/
def readVal (st : Store) : Nat → HVal → Json
  | 0, _ => .null
  | fuel + 1, .ref a => .obj ((st.getD a []).map fun kv => (kv.1, readVal st fuel kv.2))
  | fuel + 1, .arr vs => .arr (vs.map fun v => readVal st fuel v)
  | _, .num q => .num q
  | _, .str s => .str s
  | _, .bool b => .bool b
  | _, .null => .null
termination_by fuel _ => fuel

mutual
/-- `json.loads(json.dumps(...))` over the store: rebuild the value read from
`src`, allocating a fresh cell for every dict, appending onto `acc`. -/
def copyVal (src : Store) : Nat → Store → HVal → Store × HVal
  | 0, acc, _ => (acc, .null)
  | fuel + 1, acc, .ref a =>
    let r := copyDict src fuel acc (src.getD a [])
    (r.1 ++ [r.2], .ref r.1.length)
  | fuel + 1, acc, .arr vs =>
    let r := copyListVals src fuel acc vs
    (r.1, .arr r.2)
  | _, acc, .num q => (acc, .num q)
  | _, acc, .str s => (acc, .str s)
  | _, acc, .bool b => (acc, .bool b)
  | _, acc, .null => (acc, .null)

def copyDict (src : Store) : Nat → Store → HDict → Store × HDict
  | _, acc, [] => (acc, [])
  | fuel, acc, kv :: rest =>
    let r1 := copyVal src fuel acc kv.2
    let r2 := copyDict src fuel r1.1 rest
    (r2.1, (kv.1, r1.2) :: r2.2)

def copyListVals (src : Store) : Nat → Store → List HVal → Store × List HVal
  | _, acc, [] => (acc, [])
  | fuel, acc, v :: rest =>
    let r1 := copyVal src fuel acc v
    let r2 := copyListVals src fuel r1.1 rest
    (r2.1, r1.2 :: r2.2)
end

/-- The outer region loop over the store: each region's configuration dict is
read through its reference, updated with `processRegion`, and written back in
place — the only writes the merge ever performs. -/
def heapProcessRegions (calibration_data : Table) (calibration_fields : List String) :
    Store → HDict →
    Except PyErr (Store × List (ChangeRec HVal) × List MergeWarning)
  | st, [] => .ok (st, [], [])
  | st, (region_name, rv) :: rest =>
    match rv with
    | .ref c =>
      let region_config := st.getD c []
      let r := processRegion HVal.num calibration_data region_name region_config
        calibration_fields
      match heapProcessRegions calibration_data calibration_fields (st.set c r.1) rest with
      | .ok (st2, chs, ws) => .ok (st2, r.2.1 ++ chs, r.2.2 ++ ws)
      | .error e => .error e
    | _ =>
      match processFieldsNoMapping calibration_data region_name
          (hvalNonMappingIn rv) calibration_fields with
      | .ok wsr =>
        match heapProcessRegions calibration_data calibration_fields st rest with
        | .ok (st2, chs, ws) => .ok (st2, chs, wsr ++ ws)
        | .error e => .error e
      | .error e => .error e

/-- `update_config_with_calibration` over the object store: copy the document
(fresh cells), then walk `regions` and update each region dict in place.
Mirrors the value-level `update_config_with_calibration` branch for branch. -/
def heapUpdateConfig (fuel : Nat) (st : Store) (config : HVal)
    (calibration_data : Table) (calibration_fields : List String) :
    Except PyErr (Store × HVal × List (ChangeRec HVal) × List MergeWarning) :=
  let c := copyVal st fuel st config
  match c.2 with
  | .ref a =>
    match getKey (c.1.getD a []) "regions" with
    | none => .ok (c.1, c.2, [], [.noRegions])
    | some (.ref b) =>
      match heapProcessRegions calibration_data calibration_fields c.1 (c.1.getD b []) with
      | .ok (st2, chs, ws) => .ok (st2, c.2, chs, ws)
      | .error e => .error e
    | some _ => .error .attributeError
  | .arr vs =>
    if pyInHList vs "regions" then .error .typeError
    else .ok (c.1, c.2, [], [.noRegions])
  | .str s =>
    if pyStrContains s "regions" then .error .typeError
    else .ok (c.1, c.2, [], [.noRegions])
  | .num _ => .error .typeError
  | .bool _ => .error .typeError
  | .null => .error .typeError

/-! ### Derived notions used by the statements -/

/-- The calibration value the table supplies for `(field, region_name)`, if
any: the composition of the two lookups guarding the inner loop. -/
def hitB (calibration_data : Table) (region_name field : String) : Option Rat :=
  (getKey calibration_data field).bind fun fieldData => getKey fieldData region_name

/-- The warnings one region contributes: one `fieldNotFound` per selector
field that has a table value for this region but is absent from the region's
configuration (and none from any other cause). -/
def warnsOfRegion (calibration_data : Table) (calibration_fields : List String)
    (region_name : String) (v : Json) : List MergeWarning :=
  match v with
  | .obj rc =>
    (calibration_fields.filter fun f =>
      (hitB calibration_data region_name f).isSome && (getKey rc f).isNone).map
      fun f => MergeWarning.fieldNotFound f region_name
  | _ => []

/-- How one region entry of the input relates to the corresponding entry of
the output: same region name; a mapping keeps exactly its key set and every
field outside the selector keeps its value; a non-mapping value is returned
unchanged. -/
def regionFramed (calibration_fields : List String) (p q : String × Json) : Prop :=
  q.1 = p.1 ∧
  (∀ rc, p.2 = Json.obj rc →
    ∃ rc', q.2 = Json.obj rc' ∧ keysOf rc' = keysOf rc ∧
      ∀ f, f ∉ calibration_fields → getKey rc' f = getKey rc f) ∧
  (p.2.isObjB = false → q.2 = p.2)

/-! ## Lemmas about the dict primitives -/

theorem getKey_setKey_self {α : Type} (l : List (String × α)) (k : String) (v : α) :
    getKey (setKey l k v) k = some v := by
  induction l with
  | nil => simp [setKey, getKey]
  | cons kv rest ih =>
    by_cases h : kv.1 = k
    · simp [setKey, h, getKey]
    · simp [setKey, h, getKey, ih]

theorem getKey_setKey_ne {α : Type} (l : List (String × α)) (k k' : String) (v : α)
    (h : k' ≠ k) : getKey (setKey l k v) k' = getKey l k' := by
  have hne : ¬(k = k') := fun hh => h hh.symm
  induction l with
  | nil => simp [setKey, getKey, hne]
  | cons kv rest ih =>
    by_cases hk : kv.1 = k
    · subst hk
      simp [setKey, getKey, hne]
    · simp only [setKey, if_neg hk, getKey]
      by_cases hk' : kv.1 = k'
      · simp [hk']
      · simp [hk', ih]

theorem setKey_eq_self {α : Type} (l : List (String × α)) (k : String) (v : α)
    (h : getKey l k = some v) : setKey l k v = l := by
  induction l with
  | nil => simp [getKey] at h
  | cons kv rest ih =>
    obtain ⟨k1, v1⟩ := kv
    by_cases hk : k1 = k
    · subst hk
      simp only [getKey, if_pos rfl] at h
      cases h
      simp [setKey]
    · simp only [getKey, if_neg hk] at h
      simp [setKey, hk, ih h]

theorem keysOf_setKey {α : Type} (l : List (String × α)) (k : String) (v : α)
    (h : (getKey l k).isSome) : keysOf (setKey l k v) = keysOf l := by
  induction l with
  | nil => simp [getKey] at h
  | cons kv rest ih =>
    by_cases hk : kv.1 = k
    · simp [setKey, hk, keysOf]
    · simp only [getKey, if_neg hk] at h
      simp [setKey, hk, keysOf] at ih ⊢
      exact ih h

theorem getKey_isSome_iff_mem {α : Type} (l : List (String × α)) (k : String) :
    (getKey l k).isSome = true ↔ k ∈ keysOf l := by
  induction l with
  | nil => simp [getKey, keysOf]
  | cons kv rest ih =>
    by_cases hk : kv.1 = k
    · simp [getKey, hk, keysOf]
    · simp [getKey, hk, keysOf, ih, Ne.symm hk]

theorem getKey_eq_none_iff {α : Type} (l : List (String × α)) (k : String) :
    getKey l k = none ↔ k ∉ keysOf l := by
  rw [← getKey_isSome_iff_mem]
  cases getKey l k <;> simp

/-! ## The deep copy reproduces the document -/

mutual
theorem deepCopy_eq : ∀ j : Json, deepCopy j = j
  | .obj kvs => by rw [deepCopy, deepCopyKVs_eq]
  | .arr es => by rw [deepCopy, deepCopyArr_eq]
  | .num _ => rfl
  | .str _ => rfl
  | .bool _ => rfl
  | .null => rfl

theorem deepCopyKVs_eq : ∀ kvs : List (String × Json), deepCopyKVs kvs = kvs
  | [] => rfl
  | (k, v) :: rest => by rw [deepCopyKVs, deepCopy_eq v, deepCopyKVs_eq rest]

theorem deepCopyArr_eq : ∀ es : List Json, deepCopyArr es = es
  | [] => rfl
  | e :: rest => by rw [deepCopyArr, deepCopy_eq e, deepCopyArr_eq rest]
end

/-! ## One step of the inner field loop -/

theorem applyField_of_hit_none {V : Type} (mkNum : Rat → V) (tbl : Table) (rname : String)
    (st : List (String × V) × List (ChangeRec V) × List MergeWarning) (f : String)
    (h : hitB tbl rname f = none) : applyField mkNum tbl rname st f = st := by
  unfold hitB at h
  rcases hg : getKey tbl f with _ | fd
  · simp [applyField, hg]
  · rw [hg] at h
    simp only [Option.some_bind] at h
    simp [applyField, hg, h]

theorem applyField_of_hit_present {V : Type} (mkNum : Rat → V) (tbl : Table) (rname : String)
    (st : List (String × V) × List (ChangeRec V) × List MergeWarning) (f : String)
    (v : Rat) (old : V) (hv : hitB tbl rname f = some v) (ho : getKey st.1 f = some old) :
    applyField mkNum tbl rname st f =
      (setKey st.1 f (mkNum v),
       st.2.1 ++ [⟨rname, f, old, mkNum v⟩],
       st.2.2) := by
  unfold hitB at hv
  rcases hg : getKey tbl f with _ | fd
  · rw [hg] at hv; exact absurd hv (by simp)
  · rw [hg] at hv
    simp only [Option.some_bind] at hv
    simp [applyField, hg, hv, ho]

theorem applyField_of_hit_absent {V : Type} (mkNum : Rat → V) (tbl : Table) (rname : String)
    (st : List (String × V) × List (ChangeRec V) × List MergeWarning) (f : String)
    (v : Rat) (hv : hitB tbl rname f = some v) (ho : getKey st.1 f = none) :
    applyField mkNum tbl rname st f =
      (st.1, st.2.1, st.2.2 ++ [MergeWarning.fieldNotFound f rname]) := by
  unfold hitB at hv
  rcases hg : getKey tbl f with _ | fd
  · rw [hg] at hv; exact absurd hv (by simp)
  · rw [hg] at hv
    simp only [Option.some_bind] at hv
    simp [applyField, hg, hv, ho]

theorem applyField_fst_keys {V : Type} (mkNum : Rat → V) (tbl : Table) (rname : String)
    (st : List (String × V) × List (ChangeRec V) × List MergeWarning) (f : String) :
    keysOf (applyField mkNum tbl rname st f).1 = keysOf st.1 := by
  cases hv : hitB tbl rname f with
  | none => rw [applyField_of_hit_none mkNum tbl rname st f hv]
  | some v =>
    cases ho : getKey st.1 f with
    | none => rw [applyField_of_hit_absent mkNum tbl rname st f v hv ho]
    | some old =>
      rw [applyField_of_hit_present mkNum tbl rname st f v old hv ho]
      exact keysOf_setKey st.1 f (mkNum v) (by simp [ho])

theorem applyField_fst_isSome {V : Type} (mkNum : Rat → V) (tbl : Table) (rname : String)
    (st : List (String × V) × List (ChangeRec V) × List MergeWarning) (f g : String) :
    (getKey (applyField mkNum tbl rname st f).1 g).isSome = (getKey st.1 g).isSome := by
  have h1 := getKey_isSome_iff_mem (applyField mkNum tbl rname st f).1 g
  have h2 := getKey_isSome_iff_mem st.1 g
  rw [applyField_fst_keys mkNum tbl rname st f] at h1
  by_cases hm : g ∈ keysOf st.1
  · rw [(h1.mpr hm), (h2.mpr hm)]
  · rcases hb1 : (getKey (applyField mkNum tbl rname st f).1 g).isSome with _ | _
    · rcases hb2 : (getKey st.1 g).isSome with _ | _
      · rfl
      · exact absurd (h2.mp hb2) hm
    · exact absurd (h1.mp hb1) hm

theorem applyField_fst_getKey_ne {V : Type} (mkNum : Rat → V) (tbl : Table) (rname : String)
    (st : List (String × V) × List (ChangeRec V) × List MergeWarning) (f g : String)
    (hg : g ≠ f) : getKey (applyField mkNum tbl rname st f).1 g = getKey st.1 g := by
  cases hv : hitB tbl rname f with
  | none => rw [applyField_of_hit_none mkNum tbl rname st f hv]
  | some v =>
    cases ho : getKey st.1 f with
    | none => rw [applyField_of_hit_absent mkNum tbl rname st f v hv ho]
    | some old =>
      rw [applyField_of_hit_present mkNum tbl rname st f v old hv ho]
      exact getKey_setKey_ne st.1 f g (mkNum v) hg

/-! ## The inner field loop as a whole -/

theorem foldl_applyField_keys {V : Type} (mkNum : Rat → V) (tbl : Table) (rname : String)
    (fs : List String) :
    ∀ st, keysOf (fs.foldl (applyField mkNum tbl rname) st).1 = keysOf st.1 := by
  induction fs with
  | nil => intro st; rfl
  | cons g rest ih =>
    intro st
    simp only [List.foldl_cons]
    rw [ih, applyField_fst_keys]

theorem foldl_applyField_isSome {V : Type} (mkNum : Rat → V) (tbl : Table) (rname : String)
    (fs : List String) (f : String) :
    ∀ st, (getKey ((fs.foldl (applyField mkNum tbl rname) st)).1 f).isSome
      = (getKey st.1 f).isSome := by
  induction fs with
  | nil => intro st; rfl
  | cons g rest ih =>
    intro st
    simp only [List.foldl_cons]
    rw [ih, applyField_fst_isSome]

theorem foldl_applyField_not_mem {V : Type} (mkNum : Rat → V) (tbl : Table) (rname : String)
    (fs : List String) (f : String) (hf : f ∉ fs) :
    ∀ st, getKey ((fs.foldl (applyField mkNum tbl rname) st)).1 f = getKey st.1 f := by
  induction fs with
  | nil => intro st; rfl
  | cons g rest ih =>
    intro st
    simp only [List.foldl_cons]
    have hfg : f ≠ g := fun hh => hf (hh ▸ List.mem_cons_self g rest)
    have hfr : f ∉ rest := fun hh => hf (List.mem_cons_of_mem g hh)
    rw [ih hfr, applyField_fst_getKey_ne mkNum tbl rname st g f hfg]

theorem foldl_applyField_of_hit {V : Type} (mkNum : Rat → V) (tbl : Table) (rname : String)
    (fs : List String) (f : String) (v : Rat) (hv : hitB tbl rname f = some v) :
    ∀ st, f ∈ fs → (getKey st.1 f).isSome →
      getKey ((fs.foldl (applyField mkNum tbl rname) st)).1 f = some (mkNum v) := by
  induction fs with
  | nil => intro st hf; cases hf
  | cons g rest ih =>
    intro st hf ho
    simp only [List.foldl_cons]
    by_cases hfr : f ∈ rest
    · exact ih _ hfr (by rw [applyField_fst_isSome]; exact ho)
    · have hfg : f = g := by
        rcases List.mem_cons.mp hf with h | h
        · exact h
        · exact absurd h hfr
      subst hfg
      obtain ⟨old, ho'⟩ := Option.isSome_iff_exists.mp ho
      rw [foldl_applyField_not_mem mkNum tbl rname rest f hfr,
        applyField_of_hit_present mkNum tbl rname st f v old hv ho']
      exact getKey_setKey_self st.1 f (mkNum v)

theorem foldl_applyField_warns {V : Type} (mkNum : Rat → V) (tbl : Table) (rname : String)
    (fs : List String) :
    ∀ st, ((fs.foldl (applyField mkNum tbl rname) st)).2.2
      = st.2.2 ++ (fs.filter fun f =>
          (hitB tbl rname f).isSome && (getKey st.1 f).isNone).map
          (fun f => MergeWarning.fieldNotFound f rname) := by
  induction fs with
  | nil => intro st; simp
  | cons g rest ih =>
    intro st
    simp only [List.foldl_cons]
    rw [ih (applyField mkNum tbl rname st g)]
    have hpred : ∀ f ∈ rest,
        ((hitB tbl rname f).isSome && (getKey (applyField mkNum tbl rname st g).1 f).isNone)
        = ((hitB tbl rname f).isSome && (getKey st.1 f).isNone) := by
      intro f _
      have h1 := applyField_fst_isSome mkNum tbl rname st g f
      have h2 : (getKey (applyField mkNum tbl rname st g).1 f).isNone
          = (getKey st.1 f).isNone := by
        cases hx : getKey (applyField mkNum tbl rname st g).1 f with
        | none =>
          cases hy : getKey st.1 f with
          | none => rfl
          | some _ => rw [hx, hy] at h1; simp at h1
        | some _ =>
          cases hy : getKey st.1 f with
          | none => rw [hx, hy] at h1; simp at h1
          | some _ => rfl
      rw [h2]
    rw [List.filter_congr hpred]
    cases hv : hitB tbl rname g with
    | none =>
      rw [applyField_of_hit_none mkNum tbl rname st g hv]
      have : ((hitB tbl rname g).isSome && (getKey st.1 g).isNone) = false := by
        rw [hv]; rfl
      rw [List.filter_cons, this]
      simp
    | some v =>
      cases ho : getKey st.1 g with
      | some old =>
        rw [applyField_of_hit_present mkNum tbl rname st g v old hv ho]
        have : ((hitB tbl rname g).isSome && (getKey st.1 g).isNone) = false := by
          rw [hv, ho]; rfl
        rw [List.filter_cons, this]
        simp
      | none =>
        rw [applyField_of_hit_absent mkNum tbl rname st g v hv ho]
        have : ((hitB tbl rname g).isSome && (getKey st.1 g).isNone) = true := by
          rw [hv, ho]; rfl
        rw [List.filter_cons, this]
        simp

theorem foldl_applyField_idem {V : Type} (mkNum : Rat → V) (tbl : Table) (rname : String)
    (fs : List String) :
    ∀ st, (∀ f ∈ fs, ∀ v, hitB tbl rname f = some v →
        ∀ old, getKey st.1 f = some old → old = mkNum v) →
      (fs.foldl (applyField mkNum tbl rname) st).1 = st.1 ∧
      ∀ c ∈ (fs.foldl (applyField mkNum tbl rname) st).2.1,
        c ∈ st.2.1 ∨ c.old_value = c.new_value := by
  induction fs with
  | nil => intro st _; exact ⟨rfl, fun c hc => Or.inl hc⟩
  | cons g rest ih =>
    intro st hyp
    simp only [List.foldl_cons]
    cases hv : hitB tbl rname g with
    | none =>
      rw [applyField_of_hit_none mkNum tbl rname st g hv]
      exact ih st fun f hf => hyp f (List.mem_cons_of_mem g hf)
    | some v =>
      cases ho : getKey st.1 g with
      | none =>
        rw [applyField_of_hit_absent mkNum tbl rname st g v hv ho]
        have := ih (st.1, st.2.1, st.2.2 ++ [MergeWarning.fieldNotFound g rname])
          (fun f hf => hyp f (List.mem_cons_of_mem g hf))
        exact this
      | some old =>
        have hold : old = mkNum v := hyp g (List.mem_cons_self g rest) v hv old ho
        rw [applyField_of_hit_present mkNum tbl rname st g v old hv ho]
        have hset : setKey st.1 g (mkNum v) = st.1 := by
          rw [← hold]; exact setKey_eq_self st.1 g old ho
        have hrec := ih (setKey st.1 g (mkNum v),
            st.2.1 ++ [⟨rname, g, old, mkNum v⟩], st.2.2)
          (by
            intro f hf v' hv' old' ho'
            simp only at ho'
            rw [hset] at ho'
            exact hyp f (List.mem_cons_of_mem g hf) v' hv' old' ho')
        constructor
        · rw [hrec.1]; exact hset
        · intro c hc
          rcases hrec.2 c hc with hmem | heq
          · simp only [List.mem_append, List.mem_singleton] at hmem
            rcases hmem with hmem | hmem
            · exact Or.inl hmem
            · subst hmem
              exact Or.inr hold
          · exact Or.inr heq

/-! ## The outer region loop -/

theorem processRegion_fst_keys {V : Type} (mkNum : Rat → V) (tbl : Table) (rname : String)
    (rc : List (String × V)) (fs : List String) :
    keysOf (processRegion mkNum tbl rname rc fs).1 = keysOf rc :=
  foldl_applyField_keys mkNum tbl rname fs (rc, [], [])

theorem processRegion_not_mem {V : Type} (mkNum : Rat → V) (tbl : Table) (rname : String)
    (rc : List (String × V)) (fs : List String) (f : String) (hf : f ∉ fs) :
    getKey (processRegion mkNum tbl rname rc fs).1 f = getKey rc f :=
  foldl_applyField_not_mem mkNum tbl rname fs f hf (rc, [], [])

theorem processRegion_warns {V : Type} (mkNum : Rat → V) (tbl : Table) (rname : String)
    (rc : List (String × V)) (fs : List String) :
    (processRegion mkNum tbl rname rc fs).2.2
      = (fs.filter fun f => (hitB tbl rname f).isSome && (getKey rc f).isNone).map
          (fun f => MergeWarning.fieldNotFound f rname) := by
  have := foldl_applyField_warns mkNum tbl rname fs (rc, [], [])
  simpa using this

theorem processRegions_ok_framed (tbl : Table) (fs : List String) :
    ∀ regions regions2 chs ws,
      processRegions tbl fs regions = .ok (regions2, chs, ws) →
      List.Forall₂ (regionFramed fs) regions regions2 := by
  intro regions
  induction regions with
  | nil =>
    intro regions2 chs ws h
    simp only [processRegions] at h
    simp only [Except.ok.injEq, Prod.mk.injEq] at h
    obtain ⟨h1, -, -⟩ := h
    exact h1 ▸ List.Forall₂.nil
  | cons p rest ih =>
    obtain ⟨rn, rv⟩ := p
    intro regions2 chs ws h
    cases rv with
    | obj rc =>
      simp only [processRegions] at h
      cases hrec : processRegions tbl fs rest with
      | error e => rw [hrec] at h; cases h
      | ok triple =>
        obtain ⟨rs, chs1, ws1⟩ := triple
        rw [hrec] at h
        simp only [Except.ok.injEq, Prod.mk.injEq] at h
        obtain ⟨h1, -, -⟩ := h
        subst h1
        refine List.Forall₂.cons ?_ (ih rs chs1 ws1 hrec)
        refine ⟨rfl, ?_, ?_⟩
        · intro rc0 hrc0
          have : rc0 = rc := (Json.obj.inj hrc0.symm)
          subst this
          refine ⟨(processRegion Json.num tbl rn rc0 fs).1, rfl, ?_, ?_⟩
          · exact processRegion_fst_keys Json.num tbl rn rc0 fs
          · intro f hf
            exact processRegion_not_mem Json.num tbl rn rc0 fs f hf
        · intro hobj
          simp [Json.isObjB] at hobj
    | arr es =>
      simp only [processRegions] at h
      cases hw : processFieldsNoMapping tbl rn (jsonNonMappingIn (Json.arr es)) fs with
      | error e => rw [hw] at h; cases h
      | ok wsr =>
        simp only [hw] at h
        cases hrec : processRegions tbl fs rest with
        | error e => rw [hrec] at h; cases h
        | ok triple =>
          obtain ⟨rs, chs1, ws1⟩ := triple
          rw [hrec] at h
          simp only [Except.ok.injEq, Prod.mk.injEq] at h
          obtain ⟨h1, -, -⟩ := h
          subst h1
          refine List.Forall₂.cons ?_ (ih rs chs1 ws1 hrec)
          exact ⟨rfl, fun rc0 hrc0 => absurd hrc0 (by simp), fun _ => rfl⟩
    | num q =>
      simp only [processRegions] at h
      cases hw : processFieldsNoMapping tbl rn (jsonNonMappingIn (Json.num q)) fs with
      | error e => rw [hw] at h; cases h
      | ok wsr =>
        simp only [hw] at h
        cases hrec : processRegions tbl fs rest with
        | error e => rw [hrec] at h; cases h
        | ok triple =>
          obtain ⟨rs, chs1, ws1⟩ := triple
          rw [hrec] at h
          simp only [Except.ok.injEq, Prod.mk.injEq] at h
          obtain ⟨h1, -, -⟩ := h
          subst h1
          refine List.Forall₂.cons ?_ (ih rs chs1 ws1 hrec)
          exact ⟨rfl, fun rc0 hrc0 => absurd hrc0 (by simp), fun _ => rfl⟩
    | str s =>
      simp only [processRegions] at h
      cases hw : processFieldsNoMapping tbl rn (jsonNonMappingIn (Json.str s)) fs with
      | error e => rw [hw] at h; cases h
      | ok wsr =>
        simp only [hw] at h
        cases hrec : processRegions tbl fs rest with
        | error e => rw [hrec] at h; cases h
        | ok triple =>
          obtain ⟨rs, chs1, ws1⟩ := triple
          rw [hrec] at h
          simp only [Except.ok.injEq, Prod.mk.injEq] at h
          obtain ⟨h1, -, -⟩ := h
          subst h1
          refine List.Forall₂.cons ?_ (ih rs chs1 ws1 hrec)
          exact ⟨rfl, fun rc0 hrc0 => absurd hrc0 (by simp), fun _ => rfl⟩
    | bool b =>
      simp only [processRegions] at h
      cases hw : processFieldsNoMapping tbl rn (jsonNonMappingIn (Json.bool b)) fs with
      | error e => rw [hw] at h; cases h
      | ok wsr =>
        simp only [hw] at h
        cases hrec : processRegions tbl fs rest with
        | error e => rw [hrec] at h; cases h
        | ok triple =>
          obtain ⟨rs, chs1, ws1⟩ := triple
          rw [hrec] at h
          simp only [Except.ok.injEq, Prod.mk.injEq] at h
          obtain ⟨h1, -, -⟩ := h
          subst h1
          refine List.Forall₂.cons ?_ (ih rs chs1 ws1 hrec)
          exact ⟨rfl, fun rc0 hrc0 => absurd hrc0 (by simp), fun _ => rfl⟩
    | null =>
      simp only [processRegions] at h
      cases hw : processFieldsNoMapping tbl rn (jsonNonMappingIn (Json.null)) fs with
      | error e => rw [hw] at h; cases h
      | ok wsr =>
        simp only [hw] at h
        cases hrec : processRegions tbl fs rest with
        | error e => rw [hrec] at h; cases h
        | ok triple =>
          obtain ⟨rs, chs1, ws1⟩ := triple
          rw [hrec] at h
          simp only [Except.ok.injEq, Prod.mk.injEq] at h
          obtain ⟨h1, -, -⟩ := h
          subst h1
          refine List.Forall₂.cons ?_ (ih rs chs1 ws1 hrec)
          exact ⟨rfl, fun rc0 hrc0 => absurd hrc0 (by simp), fun _ => rfl⟩

theorem processRegions_idem (tbl : Table) (fs : List String) :
    ∀ regions regions2 chs ws,
      processRegions tbl fs regions = .ok (regions2, chs, ws) →
      ∃ chs2 ws2, processRegions tbl fs regions2 = .ok (regions2, chs2, ws2) ∧
        ∀ c ∈ chs2, c.old_value = c.new_value := by
  intro regions
  induction regions with
  | nil =>
    intro regions2 chs ws h
    simp only [processRegions, Except.ok.injEq, Prod.mk.injEq] at h
    obtain ⟨h1, -, -⟩ := h
    subst h1
    exact ⟨[], [], rfl, by simp⟩
  | cons p rest ih =>
    obtain ⟨rn, rv⟩ := p
    intro regions2 chs ws h
    cases rv with
    | obj rc =>
      simp only [processRegions] at h
      cases hrec : processRegions tbl fs rest with
      | error e => rw [hrec] at h; cases h
      | ok triple =>
        obtain ⟨rs, chs1, ws1⟩ := triple
        rw [hrec] at h
        simp only [Except.ok.injEq, Prod.mk.injEq] at h
        obtain ⟨h1, -, -⟩ := h
        obtain ⟨chs2, ws2, hok2, hall2⟩ := ih rs chs1 ws1 hrec
        have hidem := foldl_applyField_idem Json.num tbl rn fs
          ((processRegion Json.num tbl rn rc fs).1, [], [])
          (by
            intro f hf v hv old ho
            simp only at ho
            have hsome : (getKey (processRegion Json.num tbl rn rc fs).1 f).isSome := by
              rw [ho]; rfl
            have hsome0 : (getKey rc f).isSome := by
              have hiso := foldl_applyField_isSome Json.num tbl rn fs f (rc, [], [])
              rw [← hiso]; exact hsome
            have hval := foldl_applyField_of_hit Json.num tbl rn fs f v hv (rc, [], [])
              hf hsome0
            have : getKey (processRegion Json.num tbl rn rc fs).1 f = some (Json.num v) :=
              hval
            rw [ho] at this
            exact Option.some.inj this)
        subst h1
        refine ⟨(processRegion Json.num tbl rn
            (processRegion Json.num tbl rn rc fs).1 fs).2.1 ++ chs2,
          (processRegion Json.num tbl rn
            (processRegion Json.num tbl rn rc fs).1 fs).2.2 ++ ws2, ?_, ?_⟩
        · simp only [processRegions]
          rw [hok2]
          have hfst : (processRegion Json.num tbl rn
              (processRegion Json.num tbl rn rc fs).1 fs).1
              = (processRegion Json.num tbl rn rc fs).1 := hidem.1
          rw [hfst]
        · intro c hc
          rcases List.mem_append.mp hc with hc1 | hc2
          · rcases hidem.2 c hc1 with hmem | heq
            · cases hmem
            · exact heq
          · exact hall2 c hc2
    | arr es =>
      simp only [processRegions] at h
      cases hw : processFieldsNoMapping tbl rn (jsonNonMappingIn (Json.arr es)) fs with
      | error e => rw [hw] at h; cases h
      | ok wsr =>
        simp only [hw] at h
        cases hrec : processRegions tbl fs rest with
        | error e => rw [hrec] at h; cases h
        | ok triple =>
          obtain ⟨rs, chs1, ws1⟩ := triple
          rw [hrec] at h
          simp only [Except.ok.injEq, Prod.mk.injEq] at h
          obtain ⟨h1, -, -⟩ := h
          obtain ⟨chs2, ws2, hok2, hall2⟩ := ih rs chs1 ws1 hrec
          subst h1
          refine ⟨chs2, wsr ++ ws2, ?_, hall2⟩
          simp only [processRegions, hw, hok2]
    | num q =>
      simp only [processRegions] at h
      cases hw : processFieldsNoMapping tbl rn (jsonNonMappingIn (Json.num q)) fs with
      | error e => rw [hw] at h; cases h
      | ok wsr =>
        simp only [hw] at h
        cases hrec : processRegions tbl fs rest with
        | error e => rw [hrec] at h; cases h
        | ok triple =>
          obtain ⟨rs, chs1, ws1⟩ := triple
          rw [hrec] at h
          simp only [Except.ok.injEq, Prod.mk.injEq] at h
          obtain ⟨h1, -, -⟩ := h
          obtain ⟨chs2, ws2, hok2, hall2⟩ := ih rs chs1 ws1 hrec
          subst h1
          refine ⟨chs2, wsr ++ ws2, ?_, hall2⟩
          simp only [processRegions, hw, hok2]
    | str s =>
      simp only [processRegions] at h
      cases hw : processFieldsNoMapping tbl rn (jsonNonMappingIn (Json.str s)) fs with
      | error e => rw [hw] at h; cases h
      | ok wsr =>
        simp only [hw] at h
        cases hrec : processRegions tbl fs rest with
        | error e => rw [hrec] at h; cases h
        | ok triple =>
          obtain ⟨rs, chs1, ws1⟩ := triple
          rw [hrec] at h
          simp only [Except.ok.injEq, Prod.mk.injEq] at h
          obtain ⟨h1, -, -⟩ := h
          obtain ⟨chs2, ws2, hok2, hall2⟩ := ih rs chs1 ws1 hrec
          subst h1
          refine ⟨chs2, wsr ++ ws2, ?_, hall2⟩
          simp only [processRegions, hw, hok2]
    | bool b =>
      simp only [processRegions] at h
      cases hw : processFieldsNoMapping tbl rn (jsonNonMappingIn (Json.bool b)) fs with
      | error e => rw [hw] at h; cases h
      | ok wsr =>
        simp only [hw] at h
        cases hrec : processRegions tbl fs rest with
        | error e => rw [hrec] at h; cases h
        | ok triple =>
          obtain ⟨rs, chs1, ws1⟩ := triple
          rw [hrec] at h
          simp only [Except.ok.injEq, Prod.mk.injEq] at h
          obtain ⟨h1, -, -⟩ := h
          obtain ⟨chs2, ws2, hok2, hall2⟩ := ih rs chs1 ws1 hrec
          subst h1
          refine ⟨chs2, wsr ++ ws2, ?_, hall2⟩
          simp only [processRegions, hw, hok2]
    | null =>
      simp only [processRegions] at h
      cases hw : processFieldsNoMapping tbl rn (jsonNonMappingIn (Json.null)) fs with
      | error e => rw [hw] at h; cases h
      | ok wsr =>
        simp only [hw] at h
        cases hrec : processRegions tbl fs rest with
        | error e => rw [hrec] at h; cases h
        | ok triple =>
          obtain ⟨rs, chs1, ws1⟩ := triple
          rw [hrec] at h
          simp only [Except.ok.injEq, Prod.mk.injEq] at h
          obtain ⟨h1, -, -⟩ := h
          obtain ⟨chs2, ws2, hok2, hall2⟩ := ih rs chs1 ws1 hrec
          subst h1
          refine ⟨chs2, wsr ++ ws2, ?_, hall2⟩
          simp only [processRegions, hw, hok2]

theorem processRegions_total_warns (tbl : Table) (fs : List String) :
    ∀ regions, (∀ p ∈ regions, Json.isObjB p.2 = true) →
      ∃ regions2 chs, processRegions tbl fs regions
        = .ok (regions2, chs, regions.flatMap fun p => warnsOfRegion tbl fs p.1 p.2) := by
  intro regions
  induction regions with
  | nil => intro _; exact ⟨[], [], by simp [processRegions]⟩
  | cons p rest ih =>
    obtain ⟨rn, rv⟩ := p
    intro hobj
    have hrv : Json.isObjB rv = true := hobj (rn, rv) (List.mem_cons_self _ _)
    cases rv with
    | obj rc =>
      obtain ⟨rs, chs1, hok⟩ := ih fun q hq => hobj q (List.mem_cons_of_mem _ hq)
      refine ⟨(rn, Json.obj (processRegion Json.num tbl rn rc fs).1) :: rs,
        (processRegion Json.num tbl rn rc fs).2.1 ++ chs1, ?_⟩
      simp only [processRegions]
      rw [hok]
      have hw : (processRegion Json.num tbl rn rc fs).2.2
          = warnsOfRegion tbl fs rn (Json.obj rc) := by
        rw [processRegion_warns]
        rfl
      rw [List.flatMap_cons, ← hw]
    | arr es => simp [Json.isObjB] at hrv
    | num q => simp [Json.isObjB] at hrv
    | str s => simp [Json.isObjB] at hrv
    | bool b => simp [Json.isObjB] at hrv
    | null => simp [Json.isObjB] at hrv

theorem processFieldsNoMapping_empty_table (rname : String)
    (contains : String → Option Bool) (fs : List String) :
    processFieldsNoMapping [] rname contains fs = .ok [] := by
  induction fs with
  | nil => rfl
  | cons g rest ih => simpa [processFieldsNoMapping, getKey] using ih

theorem foldl_applyField_empty_table {V : Type} (mkNum : Rat → V) (rname : String)
    (fs : List String) :
    ∀ st, fs.foldl (applyField mkNum [] rname) st = st := by
  induction fs with
  | nil => intro st; rfl
  | cons g rest ih =>
    intro st
    simp only [List.foldl_cons]
    rw [applyField_of_hit_none mkNum [] rname st g rfl, ih]

theorem processRegions_empty_table (fs : List String) :
    ∀ regions, processRegions [] fs regions = .ok (regions, [], []) := by
  intro regions
  induction regions with
  | nil => rfl
  | cons p rest ih =>
    obtain ⟨rn, rv⟩ := p
    cases rv with
    | obj rc =>
      simp only [processRegions]
      rw [ih]
      have h1 : processRegion Json.num [] rn rc fs = (rc, [], []) :=
        foldl_applyField_empty_table Json.num rn fs (rc, [], [])
      rw [h1]
      rfl
    | arr es =>
      simp only [processRegions, processFieldsNoMapping_empty_table, ih, List.nil_append]
    | num q =>
      simp only [processRegions, processFieldsNoMapping_empty_table, ih, List.nil_append]
    | str s =>
      simp only [processRegions, processFieldsNoMapping_empty_table, ih, List.nil_append]
    | bool b =>
      simp only [processRegions, processFieldsNoMapping_empty_table, ih, List.nil_append]
    | null =>
      simp only [processRegions, processFieldsNoMapping_empty_table, ih, List.nil_append]


/-! ## Loader lemmas -/

theorem getKey_zip_not_mem {α : Type} (l1 : List String) (k : String) (hk : k ∉ l1) :
    ∀ l2 : List α, getKey (l1.zip l2) k = none := by
  induction l1 with
  | nil => intro l2; rfl
  | cons a rest ih =>
    intro l2
    cases l2 with
    | nil => rfl
    | cons b rest2 =>
      have hak : ¬(a = k) := fun hh => hk (hh ▸ List.mem_cons_self a rest)
      simp only [List.zip_cons_cons, getKey, if_neg hak]
      exact ih (fun hh => hk (List.mem_cons_of_mem a hh)) rest2

theorem getKey_dictOfPairs_none {α : Type} (l : List (String × α)) (k : String)
    (h : getKey l k = none) : getKey (dictOfPairs l) k = none := by
  have hmem : k ∉ keysOf l := (getKey_eq_none_iff l k).mp h
  unfold dictOfPairs
  have hstep : ∀ (l2 : List (String × α)) (acc : List (String × α)),
      (∀ kv ∈ l2, kv.1 ≠ k) → getKey acc k = none →
      getKey (l2.foldl (fun d kv => setKey d kv.1 kv.2) acc) k = none := by
    intro l2
    induction l2 with
    | nil => intro acc _ hacc; exact hacc
    | cons kv rest ih =>
      intro acc hl2 hacc
      simp only [List.foldl_cons]
      refine ih _ (fun q hq => hl2 q (List.mem_cons_of_mem _ hq)) ?_
      rw [getKey_setKey_ne acc kv.1 k kv.2
        (fun hh => hl2 kv (List.mem_cons_self _ _) hh.symm)]
      exact hacc
  refine hstep l [] ?_ rfl
  intro kv hkv hk
  exact hmem (hk ▸ List.mem_map_of_mem Prod.fst hkv)

theorem rowLabelOf_of_no_empty_column (header : List String) (cells : List String)
    (h : "" ∉ header) : rowLabelOf header cells = some "" := by
  have hz := getKey_zip_not_mem header "" h
    (cells.map some ++ List.replicate (header.length - cells.length) none)
  have hd := getKey_dictOfPairs_none _ "" hz
  unfold rowLabelOf rowDict
  rw [hd]

theorem load_calibration_data_of_no_empty_column {F : Type} (flt : String → Option F)
    (header : List String)
    (h : "" ∉ header) (rows : List (List String)) :
    load_calibration_data flt header rows = [] := by
  unfold load_calibration_data
  have hstep : ∀ acc, rows.foldl (recordRow flt header) acc = acc := by
    induction rows with
    | nil => intro acc; rfl
    | cons cells rest ih =>
      intro acc
      simp only [List.foldl_cons, recordRow,
        rowLabelOf_of_no_empty_column header cells h, if_pos rfl]
      exact ih acc
  exact hstep []

theorem load_calibration_data_skip_row {F : Type} (flt : String → Option F)
    (header : List String)
    (pre post : List (List String)) (cells : List String)
    (h : rowLabelOf header cells = none ∨ rowLabelOf header cells = some "") :
    load_calibration_data flt header (pre ++ cells :: post)
      = load_calibration_data flt header (pre ++ post) := by
  unfold load_calibration_data
  rw [List.foldl_append, List.foldl_append, List.foldl_cons]
  rcases h with h | h <;> simp [recordRow, h]

theorem load_calibration_data_last_row {F : Type} (flt : String → Option F)
    (header : List String)
    (rows : List (List String)) (cells : List String) (l : String)
    (hl : rowLabelOf header cells = some l) (hne : l ≠ "") :
    getKey (load_calibration_data flt header (rows ++ [cells])) l
      = some (regionDataOfRow flt header cells) := by
  unfold load_calibration_data
  rw [List.foldl_append, List.foldl_cons, List.foldl_nil]
  simp only [recordRow, hl, if_neg hne]
  exact getKey_setKey_self _ l _

theorem getKey_setKey_cases {α : Type} (l : List (String × α)) (k : String) (v : α)
    (f : String) (rd : α) (h : getKey (setKey l k v) f = some rd) :
    rd = v ∨ getKey l f = some rd := by
  by_cases hfk : f = k
  · subst hfk
    rw [getKey_setKey_self] at h
    exact Or.inl (Option.some.inj h).symm
  · rw [getKey_setKey_ne l k f v hfk] at h
    exact Or.inr h

theorem recordCell_no_empty_key {F : Type} (flt : String → Option F)
    (acc : List (String × F)) (rv : String × Option String)
    (hacc : getKey acc "" = none) : getKey (recordCell flt acc rv) "" = none := by
  obtain ⟨rk, c⟩ := rv
  by_cases hrk : rk ≠ ""
  · cases c with
    | none => simpa [recordCell, hrk] using hacc
    | some value =>
      by_cases htrim : trimChars value.data = []
      · simpa [recordCell, hrk, htrim] using hacc
      · cases hp : flt value with
        | none => simpa [recordCell, hrk, htrim, hp] using hacc
        | some x =>
          have hr : getKey (recordCell flt acc (rk, some value)) ""
              = getKey (setKey acc rk x) "" := by
            simp [recordCell, hrk, htrim, hp]
          rw [hr, getKey_setKey_ne acc rk "" x (fun hh => hrk hh.symm)]
          exact hacc
  · simpa [recordCell, hrk] using hacc

theorem regionDataOfRow_no_empty_key {F : Type} (flt : String → Option F)
    (header : List String) (cells : List String) :
    getKey (regionDataOfRow flt header cells) "" = none := by
  unfold regionDataOfRow
  have hstep : ∀ (l : List (String × Option String)) (acc : List (String × F)),
      getKey acc "" = none → getKey (l.foldl (recordCell flt) acc) "" = none := by
    intro l
    induction l with
    | nil => intro acc hacc; exact hacc
    | cons rv rest ih =>
      intro acc hacc
      simp only [List.foldl_cons]
      exact ih _ (recordCell_no_empty_key flt acc rv hacc)
  exact hstep _ [] rfl

theorem load_calibration_data_no_empty_region {F : Type} (flt : String → Option F)
    (header : List String)
    (rows : List (List String)) (f : String) (rd : List (String × F))
    (h : getKey (load_calibration_data flt header rows) f = some rd) :
    getKey rd "" = none := by
  unfold load_calibration_data at h
  have hstep : ∀ (rs : List (List String)) (acc : List (String × List (String × F))),
      (∀ g rd0, getKey acc g = some rd0 → getKey rd0 "" = none) →
      ∀ g rd0, getKey (rs.foldl (recordRow flt header) acc) g = some rd0 →
        getKey rd0 "" = none := by
    intro rs
    induction rs with
    | nil => intro acc hacc; exact hacc
    | cons cells rest ih =>
      intro acc hacc
      refine ih (recordRow flt header acc cells) ?_
      intro g rd0 hg
      unfold recordRow at hg
      cases hl : rowLabelOf header cells with
      | none => rw [hl] at hg; exact hacc g rd0 hg
      | some label =>
        rw [hl] at hg
        simp only at hg
        by_cases hlab : label = ""
        · rw [if_pos hlab] at hg; exact hacc g rd0 hg
        · rw [if_neg hlab] at hg
          rcases getKey_setKey_cases acc label (regionDataOfRow flt header cells) g rd0 hg with
            heq | hacc2
          · rw [heq]; exact regionDataOfRow_no_empty_key flt header cells
          · exact hacc g rd0 hacc2
  exact hstep rows [] (fun g rd0 hg => by cases hg) f rd h

/-! ## Top level of the merge -/

theorem update_config_no_regions (kvs : List (String × Json)) (tbl : Table)
    (fs : List String) (h : getKey kvs "regions" = none) :
    update_config_with_calibration (.obj kvs) tbl fs
      = .ok (.obj kvs, [], [.noRegions]) := by
  simp only [update_config_with_calibration, deepCopy, deepCopyKVs_eq, h]

theorem update_config_regions_not_obj (kvs : List (String × Json)) (tbl : Table)
    (fs : List String) (v : Json) (h : getKey kvs "regions" = some v)
    (hv : Json.isObjB v = false) :
    update_config_with_calibration (.obj kvs) tbl fs = .error .attributeError := by
  simp only [update_config_with_calibration, deepCopy, deepCopyKVs_eq, h]
  cases v with
  | obj rc => simp [Json.isObjB] at hv
  | arr es => rfl
  | num q => rfl
  | str s => rfl
  | bool b => rfl
  | null => rfl

theorem update_config_regions_obj (kvs : List (String × Json)) (tbl : Table)
    (fs : List String) (regions : List (String × Json))
    (h : getKey kvs "regions" = some (.obj regions)) :
    update_config_with_calibration (.obj kvs) tbl fs
      = match processRegions tbl fs regions with
        | .ok (regions2, chs, ws) =>
          .ok (.obj (setKey kvs "regions" (.obj regions2)), chs, ws)
        | .error e => .error e := by
  simp only [update_config_with_calibration, deepCopy, deepCopyKVs_eq, h]

theorem update_config_regions_obj_ok (kvs : List (String × Json)) (tbl : Table)
    (fs : List String) (regions regions2 : List (String × Json))
    (chs : List (ChangeRec Json)) (ws : List MergeWarning)
    (h : getKey kvs "regions" = some (.obj regions))
    (hp : processRegions tbl fs regions = .ok (regions2, chs, ws)) :
    update_config_with_calibration (.obj kvs) tbl fs
      = .ok (.obj (setKey kvs "regions" (.obj regions2)), chs, ws) := by
  simp only [update_config_with_calibration, deepCopy, deepCopyKVs_eq, h, hp]

theorem update_config_regions_obj_err (kvs : List (String × Json)) (tbl : Table)
    (fs : List String) (regions : List (String × Json)) (e : PyErr)
    (h : getKey kvs "regions" = some (.obj regions))
    (hp : processRegions tbl fs regions = .error e) :
    update_config_with_calibration (.obj kvs) tbl fs = .error e := by
  simp only [update_config_with_calibration, deepCopy, deepCopyKVs_eq, h, hp]

theorem update_config_arr (es : List Json) (tbl : Table) (fs : List String) :
    update_config_with_calibration (.arr es) tbl fs
      = if pyInList es "regions"
        then .error .typeError
        else .ok (.arr es, [], [.noRegions]) := by
  simp only [update_config_with_calibration, deepCopy, deepCopyArr_eq]

theorem update_config_str (s : String) (tbl : Table) (fs : List String) :
    update_config_with_calibration (.str s) tbl fs
      = if pyStrContains s "regions" then .error .typeError
        else .ok (.str s, [], [.noRegions]) := by
  simp only [update_config_with_calibration, deepCopy]

theorem update_config_empty_table_changes (config : Json) (fs : List String)
    (out : Json × List (ChangeRec Json) × List MergeWarning)
    (h : update_config_with_calibration config [] fs = .ok out) : out.2.1 = [] := by
  cases config with
  | obj kvs =>
    cases hg : getKey kvs "regions" with
    | none =>
      rw [update_config_no_regions kvs [] fs hg] at h
      simp only [Except.ok.injEq] at h
      rw [← h]
    | some v =>
      cases v with
      | obj regions =>
        rw [update_config_regions_obj_ok kvs [] fs regions regions [] [] hg
          (processRegions_empty_table fs regions)] at h
        simp only [Except.ok.injEq] at h
        rw [← h]
      | arr es => rw [update_config_regions_not_obj kvs [] fs _ hg rfl] at h; cases h
      | num q => rw [update_config_regions_not_obj kvs [] fs _ hg rfl] at h; cases h
      | str s => rw [update_config_regions_not_obj kvs [] fs _ hg rfl] at h; cases h
      | bool b => rw [update_config_regions_not_obj kvs [] fs _ hg rfl] at h; cases h
      | null => rw [update_config_regions_not_obj kvs [] fs _ hg rfl] at h; cases h
  | arr es =>
    rw [update_config_arr es [] fs] at h
    by_cases hc : pyInList es "regions"
    · rw [if_pos hc] at h; cases h
    · rw [if_neg hc] at h
      simp only [Except.ok.injEq] at h
      rw [← h]
  | str s =>
    rw [update_config_str s [] fs] at h
    by_cases hc : pyStrContains s "regions"
    · rw [if_pos hc] at h; cases h
    · rw [if_neg hc] at h
      simp only [Except.ok.injEq] at h
      rw [← h]
  | num q => cases h
  | bool b => cases h
  | null => cases h

/-! ## The claims -/

/-- C1: for a region `(region_name, region_config)` and a selector `field`,
the merge step behaves by cases: the field absent from the calibration table,
or the region absent from `table[field]`, leaves state untouched; the field
absent from the region's configuration appends a warning, records no change
and leaves the configuration (hence its key set) unchanged; otherwise it
overwrites `region_config[field]` with `table[field][region_name]`, keeping
the key set and all other keys, and records the change
`(region_name, field, old_value, new_value)`. -/
theorem claim_C1 (calibration_data : Table) (region_name : String)
    (st : List (String × Json) × List (ChangeRec Json) × List MergeWarning)
    (field : String) :
    (getKey calibration_data field = none →
      applyField Json.num calibration_data region_name st field = st) ∧
    (∀ fieldData, getKey calibration_data field = some fieldData →
      getKey fieldData region_name = none →
      applyField Json.num calibration_data region_name st field = st) ∧
    (∀ fieldData v, getKey calibration_data field = some fieldData →
      getKey fieldData region_name = some v →
      getKey st.1 field = none →
      applyField Json.num calibration_data region_name st field
        = (st.1, st.2.1, st.2.2 ++ [MergeWarning.fieldNotFound field region_name])) ∧
    (∀ fieldData v old_value, getKey calibration_data field = some fieldData →
      getKey fieldData region_name = some v →
      getKey st.1 field = some old_value →
      applyField Json.num calibration_data region_name st field
        = (setKey st.1 field (Json.num v),
           st.2.1 ++ [⟨region_name, field, old_value, Json.num v⟩], st.2.2) ∧
      getKey (applyField Json.num calibration_data region_name st field).1 field
        = some (Json.num v) ∧
      keysOf (applyField Json.num calibration_data region_name st field).1
        = keysOf st.1 ∧
      ∀ g, g ≠ field →
        getKey (applyField Json.num calibration_data region_name st field).1 g
          = getKey st.1 g) := by
  refine ⟨?_, ?_, ?_, ?_⟩
  · intro h
    exact applyField_of_hit_none Json.num calibration_data region_name st field
      (by unfold hitB; rw [h]; rfl)
  · intro fieldData hf hr
    exact applyField_of_hit_none Json.num calibration_data region_name st field
      (by unfold hitB; rw [hf]; simpa using hr)
  · intro fieldData v hf hr ho
    exact applyField_of_hit_absent Json.num calibration_data region_name st field v
      (by unfold hitB; rw [hf]; simpa using hr) ho
  · intro fieldData v old_value hf hr ho
    have hv : hitB calibration_data region_name field = some v := by
      unfold hitB; rw [hf]; simpa using hr
    refine ⟨applyField_of_hit_present Json.num calibration_data region_name st field v
      old_value hv ho, ?_, ?_, ?_⟩
    · rw [applyField_of_hit_present Json.num calibration_data region_name st field v
        old_value hv ho]
      exact getKey_setKey_self st.1 field (Json.num v)
    · exact applyField_fst_keys Json.num calibration_data region_name st field
    · intro g hg
      exact applyField_fst_getKey_ne Json.num calibration_data region_name st field g hg

/-- C1 witness: all four cases exercised on concrete data (table has field
`f` for region `A` only; configurations with and without `f`). -/
theorem claim_C1_witness :
    applyField Json.num [("f", [("A", 5)])] "A" ([("f", Json.num 1)], [], []) "g"
      = ([("f", Json.num 1)], [], []) ∧
    applyField Json.num [("f", [("A", 5)])] "B" ([("f", Json.num 1)], [], []) "f"
      = ([("f", Json.num 1)], [], []) ∧
    applyField Json.num [("f", [("A", 5)])] "A" ([("g", Json.num 1)], [], []) "f"
      = ([("g", Json.num 1)], [], [MergeWarning.fieldNotFound "f" "A"]) ∧
    applyField Json.num [("f", [("A", 5)])] "A" ([("f", Json.num 1)], [], []) "f"
      = ([("f", Json.num 5)], [⟨"A", "f", Json.num 1, Json.num 5⟩], []) := by
  refine ⟨?_, ?_, ?_, ?_⟩
  · exact (claim_C1 [("f", [("A", 5)])] "A" ([("f", Json.num 1)], [], []) "g").1 rfl
  · exact (claim_C1 [("f", [("A", 5)])] "B" ([("f", Json.num 1)], [], []) "f").2.1
      [("A", 5)] rfl rfl
  · exact (claim_C1 [("f", [("A", 5)])] "A" ([("g", Json.num 1)], [], []) "f").2.2.1
      [("A", 5)] 5 rfl rfl rfl
  · exact ((claim_C1 [("f", [("A", 5)])] "A" ([("f", Json.num 1)], [], []) "f").2.2.2
      [("A", 5)] 5 (Json.num 1) rfl rfl rfl).1

/-- C5: a configuration document whose top-level mapping has no `regions` key
makes the merge emit the no-regions warning and return a copy equal to the
input, with no change records, as a normal (`Except.ok`) completion. -/
theorem claim_C5 (kvs : List (String × Json)) (calibration_data : Table)
    (calibration_fields : List String) (h : getKey kvs "regions" = none) :
    update_config_with_calibration (Json.obj kvs) calibration_data calibration_fields
      = .ok (Json.obj kvs, [], [MergeWarning.noRegions]) :=
  update_config_no_regions kvs calibration_data calibration_fields h

/-- C5 witness: a concrete one-key document without `regions`. -/
theorem claim_C5_witness :
    update_config_with_calibration (Json.obj [("name", Json.str "x")])
      [("f", [("A", 5)])] ["f"]
      = .ok (Json.obj [("name", Json.str "x")], [], [MergeWarning.noRegions]) :=
  claim_C5 [("name", Json.str "x")] [("f", [("A", 5)])] ["f"] rfl

/-- C9: when `regions` is present but its value is not a mapping, the merge
does not return the warning no-op result: it raises (modelled as
`Except.error .attributeError`, Python's AttributeError at `.items()`). -/
theorem claim_C9 (kvs : List (String × Json)) (calibration_data : Table)
    (calibration_fields : List String) (v : Json)
    (h : getKey kvs "regions" = some v) (hv : Json.isObjB v = false) :
    update_config_with_calibration (Json.obj kvs) calibration_data calibration_fields
      = .error .attributeError :=
  update_config_regions_not_obj kvs calibration_data calibration_fields v h hv

/-- C9 witness: `regions` bound to a list. -/
theorem claim_C9_witness :
    update_config_with_calibration (Json.obj [("regions", Json.arr [Json.num 1])])
      [("f", [("A", 5)])] ["f"]
      = .error .attributeError :=
  claim_C9 [("regions", Json.arr [Json.num 1])] [("f", [("A", 5)])] ["f"]
    (Json.arr [Json.num 1]) rfl rfl

/-- C8: a data row whose label cell is empty (`some ""`), or missing
(`none`, a short row), contributes nothing to the table: loading with the row
equals loading without it, so none of its cells is recorded, numeric or not. -/
theorem claim_C8 (F : Type) (flt : String → Option F) (header : List String)
    (pre post : List (List String)) (cells : List String)
    (h : rowLabelOf header cells = none ∨ rowLabelOf header cells = some "") :
    load_calibration_data flt header (pre ++ cells :: post)
      = load_calibration_data flt header (pre ++ post) :=
  load_calibration_data_skip_row flt header pre post cells h

/-- C8 witness: a row with an empty label and a perfectly numeric cell is
dropped whole. -/
theorem claim_C8_witness :
    load_calibration_data pyFloat ["", "A"] [["", "7"], ["g", "3"]]
      = load_calibration_data pyFloat ["", "A"] [["g", "3"]] :=
  claim_C8 Rat pyFloat ["", "A"] [] [["g", "3"]] ["", "7"] (Or.inr rfl)

/-- C6 counterexample: two rows share the label `f`; the earlier row recorded
`A = 1`, the later row leaves `A` empty and records only `B = 3`.  Line 109
replaces the whole mapping, so `A` is gone from `table[f]` — the claim's
promised persistence of earlier cells fails at this input. -/
theorem claim_C6_counterexample :
    load_calibration_data pyFloat ["", "A", "B"] [["f", "1", "2"], ["f", "", "3"]]
      = [("f", [("B", 3)])] ∧
    ((getKey (load_calibration_data pyFloat ["", "A", "B"]
        [["f", "1", "2"], ["f", "", "3"]]) "f").map
      fun rd => getKey rd "A") = some none :=
  ⟨rfl, rfl⟩

/-- C6 (amended): the loader builds each row's region mapping from that row
alone and assigns it to the row's label; hence after loading, a label is bound
to exactly the region data of the last truthy-labelled row bearing it, and
cells an earlier same-labelled row recorded are discarded, not merged. -/
theorem claim_C6 (F : Type) (flt : String → Option F) (header : List String)
    (rows : List (List String))
    (cells : List String) (l : String) (hl : rowLabelOf header cells = some l)
    (hne : l ≠ "") :
    getKey (load_calibration_data flt header (rows ++ [cells])) l
      = some (regionDataOfRow flt header cells) :=
  load_calibration_data_last_row flt header rows cells l hl hne

/-- C6 witness: the counterexample's input, through the amended statement. -/
theorem claim_C6_witness :
    getKey (load_calibration_data pyFloat ["", "A", "B"]
        [["f", "1", "2"], ["f", "", "3"]]) "f"
      = some (regionDataOfRow pyFloat ["", "A", "B"] ["f", "", "3"]) ∧
    regionDataOfRow pyFloat ["", "A", "B"] ["f", "", "3"] = [("B", 3)] :=
  ⟨claim_C6 Rat pyFloat ["", "A", "B"] [["f", "1", "2"]] ["f", "", "3"] "f" rfl (by decide),
    rfl⟩

/-- C10: the row-label column is exactly the empty-named header column.  With
no empty-named column in the header, every row's label defaults to the empty
string, the loader returns the empty table, and a merge run with the empty
table records no changes; moreover the empty-named column is never recorded
as a region key in any field's mapping. -/
theorem claim_C10 :
    (∀ header cells, "" ∉ header → rowLabelOf header cells = some "") ∧
    (∀ (F : Type) (flt : String → Option F) header rows, "" ∉ header →
      load_calibration_data flt header rows = []) ∧
    (∀ config fields out, update_config_with_calibration config [] fields = .ok out →
      out.2.1 = []) ∧
    (∀ (F : Type) (flt : String → Option F) header rows f rd,
      getKey (load_calibration_data flt header rows) f = some rd →
      getKey rd "" = none) := by
  refine ⟨?_, ?_, ?_, ?_⟩
  · intro header cells h
    exact rowLabelOf_of_no_empty_column header cells h
  · intro F flt header rows h
    exact load_calibration_data_of_no_empty_column flt header h rows
  · intro config fields out h
    exact update_config_empty_table_changes config fields out h
  · intro F flt header rows f rd h
    exact load_calibration_data_no_empty_region flt header rows f rd h

/-- C10 witness: a header with no empty-named column; the loader returns the
empty table and a subsequent merge records no changes. -/
theorem claim_C10_witness :
    rowLabelOf ["A", "B"] ["f", "1"] = some "" ∧
    load_calibration_data pyFloat ["A", "B"] [["f", "1"], ["g", "2"]] = [] ∧
    (Json.obj [("regions", Json.obj [("A", Json.obj [("f", Json.num 1)])])],
      ([] : List (ChangeRec Json)), ([] : List MergeWarning)).2.1 = ([] : List (ChangeRec Json)) ∧
    getKey [("A", (3 : Rat))] "" = none := by
  refine ⟨?_, ?_, ?_, ?_⟩
  · exact claim_C10.1 ["A", "B"] ["f", "1"] (by decide)
  · exact claim_C10.2.1 Rat pyFloat ["A", "B"] [["f", "1"], ["g", "2"]] (by decide)
  · exact claim_C10.2.2.1
      (Json.obj [("regions", Json.obj [("A", Json.obj [("f", Json.num 1)])])]) ["f"]
      (Json.obj [("regions", Json.obj [("A", Json.obj [("f", Json.num 1)])])], [], []) rfl
  · exact claim_C10.2.2.2 Rat pyFloat ["", "A"] [["g", "3"]] "g" [("A", 3)] rfl

/-- C7 counterexample: one run in which three of the four policy skips occur —
the only cell (`N/A`) is malformed, selector field `g` is missing from the
table, and field `f` has no value for region `A` — yet the merge completes
with an empty warning list: none of these events is logged.  (Only the fourth
kind, a field missing from a region's configuration, ever produces a
warning.) -/
theorem claim_C7_counterexample :
    load_calibration_data pyFloat ["", "A"] [["f", "N/A"]] = [("f", [])] ∧
    update_config_with_calibration
      (Json.obj [("regions", Json.obj [("A", Json.obj [("f", Json.num 1)])])])
      (load_calibration_data pyFloat ["", "A"] [["f", "N/A"]])
      ["f", "g"]
    = .ok (Json.obj [("regions", Json.obj [("A", Json.obj [("f", Json.num 1)])])],
        [], []) :=
  ⟨rfl, rfl⟩

/-- C7 (amended): no policy skip aborts the run — on a document whose regions
are all mappings the merge completes normally — but only the
field-missing-from-region skip is logged: the warning list is exactly one
`fieldNotFound` per selector field that has table data for the region but is
absent from the region's configuration; malformed cells, fields missing from
the table and regions missing from a field's data are skipped silently. -/
theorem claim_C7 (kvs : List (String × Json)) (calibration_data : Table)
    (calibration_fields : List String) (regions : List (String × Json))
    (hg : getKey kvs "regions" = some (Json.obj regions))
    (hobj : ∀ p ∈ regions, Json.isObjB p.2 = true) :
    (∃ out, update_config_with_calibration (Json.obj kvs) calibration_data
        calibration_fields = .ok out) ∧
    ∀ doc chs ws, update_config_with_calibration (Json.obj kvs) calibration_data
        calibration_fields = .ok (doc, chs, ws) →
      ws = regions.flatMap fun p =>
        warnsOfRegion calibration_data calibration_fields p.1 p.2 := by
  obtain ⟨regions2, chs0, hok⟩ :=
    processRegions_total_warns calibration_data calibration_fields regions hobj
  have hupd := update_config_regions_obj_ok kvs calibration_data calibration_fields
    regions regions2 chs0 _ hg hok
  refine ⟨⟨_, hupd⟩, ?_⟩
  intro doc chs ws h
  rw [hupd] at h
  simp only [Except.ok.injEq, Prod.mk.injEq] at h
  exact h.2.2.symm

/-- C7 witness: region `A` lacks selector field `f` although the table has a
value for it; the run completes and logs exactly that one warning. -/
theorem claim_C7_witness :
    update_config_with_calibration (Json.obj [("regions", Json.obj [("A", Json.obj [])])])
      [("f", [("A", 5)])] ["f"]
      = .ok (Json.obj [("regions", Json.obj [("A", Json.obj [])])], [],
          [MergeWarning.fieldNotFound "f" "A"]) ∧
    [MergeWarning.fieldNotFound "f" "A"]
      = [("A", Json.obj ([] : List (String × Json)))].flatMap
          (fun p => warnsOfRegion [("f", [("A", 5)])] ["f"] p.1 p.2) := by
  constructor
  · rfl
  · exact ((claim_C7 [("regions", Json.obj [("A", Json.obj [])])] [("f", [("A", 5)])]
      ["f"] [("A", Json.obj [])] rfl
      (by
        intro p hp
        rcases List.mem_singleton.mp hp with rfl
        rfl)).2
      (Json.obj [("regions", Json.obj [("A", Json.obj [])])]) []
      [MergeWarning.fieldNotFound "f" "A"] rfl)

/-- C4: a successful merge only rewrites selected fields inside region
configurations.  The output is a mapping with the same ordered key list as
the input; every top-level key other than `regions` keeps its value;
`regions` is again a mapping relating to the input region list entrywise:
same region names, each region mapping keeps exactly its key set and every
field outside the selector keeps its input value (even when the table has
data for it), and non-mapping region values pass through unchanged. -/
theorem claim_C4 (kvs : List (String × Json)) (calibration_data : Table)
    (calibration_fields : List String) (regions : List (String × Json))
    (doc2 : Json) (chs : List (ChangeRec Json)) (ws : List MergeWarning)
    (hg : getKey kvs "regions" = some (Json.obj regions))
    (h : update_config_with_calibration (Json.obj kvs) calibration_data
      calibration_fields = .ok (doc2, chs, ws)) :
    ∃ kvs2 regions2,
      doc2 = Json.obj kvs2 ∧
      keysOf kvs2 = keysOf kvs ∧
      (∀ k, k ≠ "regions" → getKey kvs2 k = getKey kvs k) ∧
      getKey kvs2 "regions" = some (Json.obj regions2) ∧
      List.Forall₂ (regionFramed calibration_fields) regions regions2 := by
  cases hp : processRegions calibration_data calibration_fields regions with
  | error e =>
    rw [update_config_regions_obj_err kvs calibration_data calibration_fields regions
      e hg hp] at h
    cases h
  | ok triple =>
    obtain ⟨regions2, chs0, ws0⟩ := triple
    rw [update_config_regions_obj_ok kvs calibration_data calibration_fields regions
      regions2 chs0 ws0 hg hp] at h
    simp only [Except.ok.injEq, Prod.mk.injEq] at h
    obtain ⟨hdoc, -, -⟩ := h
    refine ⟨setKey kvs "regions" (Json.obj regions2), regions2, hdoc.symm, ?_, ?_, ?_, ?_⟩
    · exact keysOf_setKey kvs "regions" (Json.obj regions2) (by rw [hg]; rfl)
    · intro k hk
      exact getKey_setKey_ne kvs "regions" k (Json.obj regions2) hk
    · exact getKey_setKey_self kvs "regions" (Json.obj regions2)
    · exact processRegions_ok_framed calibration_data calibration_fields regions
        regions2 chs0 ws0 hp

/-- C4 witness: a document with an extra top-level key, an extra region field
outside the selector, and table data for a non-selected field; the framing
conclusion holds at the concrete run. -/
theorem claim_C4_witness :
    ∃ kvs2 regions2,
      Json.obj [("other", Json.num 7),
        ("regions", Json.obj [("A", Json.obj [("f", Json.num 55), ("g", Json.num 1)])])]
        = Json.obj kvs2 ∧
      keysOf kvs2 = keysOf [("other", Json.num 7),
        ("regions", Json.obj [("A", Json.obj [("f", Json.num 1), ("g", Json.num 1)])])] ∧
      (∀ k, k ≠ "regions" →
        getKey kvs2 k = getKey [("other", Json.num 7),
          ("regions", Json.obj [("A", Json.obj [("f", Json.num 1), ("g", Json.num 1)])])] k) ∧
      getKey kvs2 "regions" = some (Json.obj regions2) ∧
      List.Forall₂ (regionFramed ["f"])
        [("A", Json.obj [("f", Json.num 1), ("g", Json.num 1)])] regions2 :=
  claim_C4
    [("other", Json.num 7),
      ("regions", Json.obj [("A", Json.obj [("f", Json.num 1), ("g", Json.num 1)])])]
    [("f", [("A", 55)]), ("g", [("A", 9)])] ["f"]
    [("A", Json.obj [("f", Json.num 1), ("g", Json.num 1)])]
    (Json.obj [("other", Json.num 7),
      ("regions", Json.obj [("A", Json.obj [("f", Json.num 55), ("g", Json.num 1)])])])
    [⟨"A", "f", Json.num 1, Json.num 55⟩] []
    rfl rfl

/-- C3: the merge is idempotent.  If a run completes with output document
`doc1`, running the merge again on `doc1` with the same table and selector
completes with the same document `doc1`, and every change record of the
second run has its old value equal to its new value (the second run rewrites
each cell with the value it already holds). -/
theorem claim_C3 (config : Json) (calibration_data : Table)
    (calibration_fields : List String) (doc1 : Json)
    (chs1 : List (ChangeRec Json)) (ws1 : List MergeWarning)
    (h : update_config_with_calibration config calibration_data calibration_fields
      = .ok (doc1, chs1, ws1)) :
    ∃ chs2 ws2,
      update_config_with_calibration doc1 calibration_data calibration_fields
        = .ok (doc1, chs2, ws2) ∧
      ∀ c ∈ chs2, c.old_value = c.new_value := by
  cases config with
  | obj kvs =>
    cases hg : getKey kvs "regions" with
    | none =>
      rw [update_config_no_regions kvs calibration_data calibration_fields hg] at h
      simp only [Except.ok.injEq, Prod.mk.injEq] at h
      obtain ⟨hdoc, -, -⟩ := h
      subst hdoc
      exact ⟨[], [.noRegions],
        update_config_no_regions kvs calibration_data calibration_fields hg, by simp⟩
    | some v =>
      cases v with
      | obj regions =>
        cases hp : processRegions calibration_data calibration_fields regions with
        | error e =>
          rw [update_config_regions_obj_err kvs calibration_data calibration_fields
            regions e hg hp] at h
          cases h
        | ok triple =>
          obtain ⟨regions2, chs0, ws0⟩ := triple
          rw [update_config_regions_obj_ok kvs calibration_data calibration_fields
            regions regions2 chs0 ws0 hg hp] at h
          simp only [Except.ok.injEq, Prod.mk.injEq] at h
          obtain ⟨hdoc, -, -⟩ := h
          obtain ⟨chs2, ws2, hok2, hall⟩ :=
            processRegions_idem calibration_data calibration_fields regions regions2
              chs0 ws0 hp
          have hget : getKey (setKey kvs "regions" (Json.obj regions2)) "regions"
              = some (Json.obj regions2) :=
            getKey_setKey_self kvs "regions" (Json.obj regions2)
          have hupd2 := update_config_regions_obj_ok
            (setKey kvs "regions" (Json.obj regions2)) calibration_data
            calibration_fields regions2 regions2 chs2 ws2 hget hok2
          rw [setKey_eq_self (setKey kvs "regions" (Json.obj regions2)) "regions"
            (Json.obj regions2) hget] at hupd2
          subst hdoc
          exact ⟨chs2, ws2, hupd2, hall⟩
      | arr es =>
        rw [update_config_regions_not_obj kvs calibration_data calibration_fields _
          hg rfl] at h
        cases h
      | num q =>
        rw [update_config_regions_not_obj kvs calibration_data calibration_fields _
          hg rfl] at h
        cases h
      | str s =>
        rw [update_config_regions_not_obj kvs calibration_data calibration_fields _
          hg rfl] at h
        cases h
      | bool b =>
        rw [update_config_regions_not_obj kvs calibration_data calibration_fields _
          hg rfl] at h
        cases h
      | null =>
        rw [update_config_regions_not_obj kvs calibration_data calibration_fields _
          hg rfl] at h
        cases h
  | arr es =>
    rw [update_config_arr es calibration_data calibration_fields] at h
    by_cases hc : pyInList es "regions"
    · rw [if_pos hc] at h; cases h
    · rw [if_neg hc] at h
      simp only [Except.ok.injEq, Prod.mk.injEq] at h
      obtain ⟨hdoc, -, -⟩ := h
      subst hdoc
      refine ⟨[], [.noRegions], ?_, by simp⟩
      rw [update_config_arr es calibration_data calibration_fields, if_neg hc]
  | str s =>
    rw [update_config_str s calibration_data calibration_fields] at h
    by_cases hc : pyStrContains s "regions"
    · rw [if_pos hc] at h; cases h
    · rw [if_neg hc] at h
      simp only [Except.ok.injEq, Prod.mk.injEq] at h
      obtain ⟨hdoc, -, -⟩ := h
      subst hdoc
      refine ⟨[], [.noRegions], ?_, by simp⟩
      rw [update_config_str s calibration_data calibration_fields, if_neg hc]
  | num q => cases h
  | bool b => cases h
  | null => cases h

/-- C3 witness: a concrete run (field `f` of region `A` goes 1 to 5); the
second run reproduces the document and its one change record has old value
equal to new value. -/
theorem claim_C3_witness :
    ∃ chs2 ws2,
      update_config_with_calibration
        (Json.obj [("regions", Json.obj [("A", Json.obj [("f", Json.num 5)])])])
        [("f", [("A", 5)])] ["f"]
        = .ok (Json.obj [("regions", Json.obj [("A", Json.obj [("f", Json.num 5)])])],
            chs2, ws2) ∧
      ∀ c ∈ chs2, c.old_value = c.new_value :=
  claim_C3 (Json.obj [("regions", Json.obj [("A", Json.obj [("f", Json.num 1)])])])
    [("f", [("A", 5)])] ["f"]
    (Json.obj [("regions", Json.obj [("A", Json.obj [("f", Json.num 5)])])])
    [⟨"A", "f", Json.num 1, Json.num 5⟩] [] rfl

/-! ## Store lemmas for the non-mutation claim -/

theorem getD_set_ne {α : Type} (l : List α) (i j : Nat) (a d : α) (h : i ≠ j) :
    (l.set i a).getD j d = l.getD j d := by
  simp [List.getD, List.getElem?_set_ne h]

theorem getD_append_left {α : Type} (l1 l2 : List α) (j : Nat) (d : α)
    (h : j < l1.length) : (l1 ++ l2).getD j d = l1.getD j d := by
  simp [List.getD, List.getElem?_append_left h]

theorem getD_mem_drop {α : Type} (l : List α) (a n : Nat) (d : α)
    (h1 : n ≤ a) (h2 : a < l.length) : l.getD a d ∈ l.drop n := by
  rw [List.getD, List.get?_eq_getElem?, List.getElem?_eq_getElem h2]
  simp only [Option.getD_some]
  rw [List.mem_iff_getElem]
  have hlt : a - n < (List.drop n l).length := by
    rw [List.length_drop]; omega
  refine ⟨a - n, hlt, ?_⟩
  rw [List.getElem_drop]
  congr 1
  omega

theorem getD_of_length_le {α : Type} (l : List α) (a : Nat) (d : α)
    (h : l.length ≤ a) : l.getD a d = d := by
  rw [List.getD, List.get?_eq_getElem?, List.getElem?_eq_none h]
  rfl

/-- The heap copy only appends to the store. -/
theorem copyVal_store_extend (src : Store) :
    ∀ fuel acc v, acc <+: (copyVal src fuel acc v).1 := by
  intro fuel acc v
  refine copyVal.induct src
    (fun f a x => a <+: (copyVal src f a x).1)
    (fun f a l => a <+: (copyListVals src f a l).1)
    (fun f a d => a <+: (copyDict src f a d).1)
    ?_ ?_ ?_ ?_ ?_ ?_ ?_ ?_ ?_ ?_ ?_ fuel acc v
  · intro acc x
    simp [copyVal]
  · intro fuel acc a ih
    simp only [copyVal]
    exact ih.trans ⟨[(copyDict src fuel acc (src.getD a [])).2], rfl⟩
  · intro fuel acc vs ih
    simpa [copyVal] using ih
  · intro x acc q hx
    cases x with
    | zero => exact absurd rfl hx
    | succ f => simp [copyVal]
  · intro x acc s hx
    cases x with
    | zero => exact absurd rfl hx
    | succ f => simp [copyVal]
  · intro x acc b hx
    cases x with
    | zero => exact absurd rfl hx
    | succ f => simp [copyVal]
  · intro x acc hx
    cases x with
    | zero => exact absurd rfl hx
    | succ f => simp [copyVal]
  · intro x acc
    simp [copyListVals]
  · intro fuel acc v rest r1 ih1 ih2
    simp only [copyListVals]
    exact ih1.trans ih2
  · intro x acc
    simp [copyDict]
  · intro fuel acc kv rest r1 ih1 ih2
    simp only [copyDict]
    exact ih1.trans ih2

/-- The heap copy allocates fresh cells only: provided the store already has
length at least `n` and its tail from `n` on references only cells from `n`
on, the same holds after the copy, and the copied value itself references
only cells from `n` on (it is disjoint from the first `n` cells). -/
theorem copyVal_refs_atLeast (src : Store) (n : Nat) :
    ∀ fuel acc v, n ≤ acc.length → storeTailAtLeast acc n →
      acc <+: (copyVal src fuel acc v).1 ∧
      storeTailAtLeast (copyVal src fuel acc v).1 n ∧
      refsAtLeast (copyVal src fuel acc v).2 n = true := by
  intro fuel acc v
  refine copyVal.induct src
    (fun f a x => n ≤ a.length → storeTailAtLeast a n →
      a <+: (copyVal src f a x).1 ∧
      storeTailAtLeast (copyVal src f a x).1 n ∧
      refsAtLeast (copyVal src f a x).2 n = true)
    (fun f a l => n ≤ a.length → storeTailAtLeast a n →
      a <+: (copyListVals src f a l).1 ∧
      storeTailAtLeast (copyListVals src f a l).1 n ∧
      refsAtLeastList (copyListVals src f a l).2 n = true)
    (fun f a d => n ≤ a.length → storeTailAtLeast a n →
      a <+: (copyDict src f a d).1 ∧
      storeTailAtLeast (copyDict src f a d).1 n ∧
      dictRefsAtLeast (copyDict src f a d).2 n = true)
    ?_ ?_ ?_ ?_ ?_ ?_ ?_ ?_ ?_ ?_ ?_ fuel acc v
  · intro acc x h1 h2
    refine ⟨by simp [copyVal], ?_, by simp [copyVal, refsAtLeast]⟩
    simpa [copyVal] using h2
  · intro fuel acc a ih h1 h2
    obtain ⟨hpre, htail, hrefs⟩ := ih h1 h2
    have hlen : n ≤ (copyDict src fuel acc (src.getD a [])).1.length :=
      le_trans h1 hpre.length_le
    simp only [copyVal]
    refine ⟨hpre.trans ⟨[(copyDict src fuel acc (src.getD a [])).2], rfl⟩, ?_, ?_⟩
    · intro d hd
      rw [List.drop_append_of_le_length hlen] at hd
      rcases List.mem_append.mp hd with hd1 | hd2
      · exact htail d hd1
      · rcases List.mem_singleton.mp hd2 with rfl
        exact hrefs
    · simp only [refsAtLeast, decide_eq_true_eq]
      exact hlen
  · intro fuel acc vs ih h1 h2
    obtain ⟨hpre, htail, hrefs⟩ := ih h1 h2
    simp only [copyVal]
    exact ⟨hpre, htail, by simpa [refsAtLeast] using hrefs⟩
  · intro x acc q hx h1 h2
    cases x with
    | zero => exact absurd rfl hx
    | succ f => exact ⟨by simp [copyVal], by simpa [copyVal] using h2, by simp [copyVal, refsAtLeast]⟩
  · intro x acc s hx h1 h2
    cases x with
    | zero => exact absurd rfl hx
    | succ f => exact ⟨by simp [copyVal], by simpa [copyVal] using h2, by simp [copyVal, refsAtLeast]⟩
  · intro x acc b hx h1 h2
    cases x with
    | zero => exact absurd rfl hx
    | succ f => exact ⟨by simp [copyVal], by simpa [copyVal] using h2, by simp [copyVal, refsAtLeast]⟩
  · intro x acc hx h1 h2
    cases x with
    | zero => exact absurd rfl hx
    | succ f => exact ⟨by simp [copyVal], by simpa [copyVal] using h2, by simp [copyVal, refsAtLeast]⟩
  · intro x acc h1 h2
    exact ⟨by simp [copyListVals], by simpa [copyListVals] using h2,
      by simp [copyListVals, refsAtLeastList]⟩
  · intro fuel acc v rest r1 ih1 ih2 h1 h2
    obtain ⟨hpre1, htail1, hrefs1⟩ := ih1 h1 h2
    obtain ⟨hpre2, htail2, hrefs2⟩ := ih2 (le_trans h1 hpre1.length_le) htail1
    simp only [copyListVals]
    exact ⟨hpre1.trans hpre2, htail2, by simp [refsAtLeastList, hrefs1, hrefs2]⟩
  · intro x acc h1 h2
    exact ⟨by simp [copyDict], by simpa [copyDict] using h2,
      by simp [copyDict, dictRefsAtLeast]⟩
  · intro fuel acc kv rest r1 ih1 ih2 h1 h2
    obtain ⟨hpre1, htail1, hrefs1⟩ := ih1 h1 h2
    obtain ⟨hpre2, htail2, hrefs2⟩ := ih2 (le_trans h1 hpre1.length_le) htail1
    simp only [copyDict]
    refine ⟨hpre1.trans hpre2, htail2, ?_⟩
    simp only [dictRefsAtLeast, List.all_cons, Bool.and_eq_true]
    constructor
    · exact hrefs1
    · simpa [dictRefsAtLeast] using hrefs2

theorem refsBelowList_mem (vs : List HVal) (n : Nat) (h : refsBelowList vs n = true) :
    ∀ x ∈ vs, refsBelow x n = true := by
  induction vs with
  | nil => intro x hx; cases hx
  | cons v rest ih =>
    simp only [refsBelowList, Bool.and_eq_true] at h
    intro x hx
    rcases List.mem_cons.mp hx with rfl | hx2
    · exact h.1
    · exact ih h.2 x hx2

theorem closed_getD_refsBelow (st : Store) (n a : Nat)
    (hc : storeClosedBelow st n = true) (ha : a < n) :
    dictRefsBelow (st.getD a []) n = true := by
  by_cases hlen : a < st.length
  · have hmem : st.getD a [] ∈ st.take n := by
      rw [List.getD, List.get?_eq_getElem?, List.getElem?_eq_getElem hlen]
      simp only [Option.getD_some]
      rw [List.mem_iff_getElem]
      have h1 : a < (st.take n).length := by
        rw [List.length_take]; omega
      exact ⟨a, h1, by rw [List.getElem_take]⟩
    unfold storeClosedBelow at hc
    rw [List.all_eq_true] at hc
    exact hc _ hmem
  · rw [getD_of_length_le st a [] (by omega)]
    rfl

/-- Reading a value whose references stay below `n` out of a store that is
closed below `n` does not see changes made at positions `n` and beyond. -/
theorem readVal_frame (n : Nat) (st st2 : Store)
    (hclosed : storeClosedBelow st n = true)
    (hagree : ∀ j, j < n → st2.getD j [] = st.getD j []) :
    ∀ fuel v, refsBelow v n = true → readVal st2 fuel v = readVal st fuel v := by
  intro fuel
  induction fuel with
  | zero => intro v _; simp [readVal]
  | succ f ih =>
    intro v hv
    cases v with
    | ref a =>
      have ha : a < n := by simpa [refsBelow] using hv
      simp only [readVal]
      rw [hagree a ha]
      refine congrArg Json.obj (List.map_congr_left ?_)
      intro kv hkv
      have hd := closed_getD_refsBelow st n a hclosed ha
      rw [dictRefsBelow, List.all_eq_true] at hd
      rw [ih kv.2 (hd kv hkv)]
    | arr vs =>
      simp only [readVal]
      refine congrArg Json.arr (List.map_congr_left ?_)
      intro x hx
      have hx2 : refsBelow x n = true :=
        refsBelowList_mem vs n (by simpa [refsBelow] using hv) x hx
      exact ih x hx2
    | num q => simp [readVal]
    | str s => simp [readVal]
    | bool b => simp [readVal]
    | null => simp [readVal]

theorem getKey_mem {α : Type} (l : List (String × α)) (k : String) (v : α)
    (h : getKey l k = some v) : (k, v) ∈ l := by
  induction l with
  | nil => cases h
  | cons kv rest ih =>
    by_cases hk : kv.1 = k
    · simp only [getKey, if_pos hk] at h
      cases h
      subst hk
      exact List.mem_cons_self _ _
    · simp only [getKey, if_neg hk] at h
      exact List.mem_cons_of_mem _ (ih h)

theorem setKey_all {α : Type} (P : α → Bool) (l : List (String × α)) (k : String) (v : α)
    (hl : ∀ kv ∈ l, P kv.2 = true) (hv : P v = true) :
    ∀ kv ∈ setKey l k v, P kv.2 = true := by
  induction l with
  | nil =>
    intro kv hkv
    rcases List.mem_singleton.mp hkv with rfl
    exact hv
  | cons kv0 rest ih =>
    intro kv hkv
    by_cases hk : kv0.1 = k
    · rw [setKey, if_pos hk] at hkv
      rcases List.mem_cons.mp hkv with rfl | hkv2
      · exact hv
      · exact hl kv (List.mem_cons_of_mem _ hkv2)
    · rw [setKey, if_neg hk] at hkv
      rcases List.mem_cons.mp hkv with rfl | hkv2
      · exact hl kv (List.mem_cons_self _ _)
      · exact ih (fun x hx => hl x (List.mem_cons_of_mem _ hx)) kv hkv2

theorem foldl_applyField_all {V : Type} (mkNum : Rat → V) (P : V → Bool)
    (hmk : ∀ q, P (mkNum q) = true) (tbl : Table) (rname : String) (fs : List String) :
    ∀ st, (∀ kv ∈ st.1, P kv.2 = true) →
      ∀ kv ∈ (fs.foldl (applyField mkNum tbl rname) st).1, P kv.2 = true := by
  induction fs with
  | nil => intro st h; exact h
  | cons g rest ih =>
    intro st h
    simp only [List.foldl_cons]
    refine ih (applyField mkNum tbl rname st g) ?_
    cases hv : hitB tbl rname g with
    | none => rw [applyField_of_hit_none mkNum tbl rname st g hv]; exact h
    | some v =>
      cases ho : getKey st.1 g with
      | none => rw [applyField_of_hit_absent mkNum tbl rname st g v hv ho]; exact h
      | some old =>
        rw [applyField_of_hit_present mkNum tbl rname st g v old hv ho]
        exact setKey_all P st.1 g (mkNum v) h (hmk v)

/-- The region loop writes only at the region dicts it was given, whose
addresses all lie at or beyond `n`: the first `n` store cells survive
unchanged, and the tail invariant is maintained. -/
theorem heapProcessRegions_frame (tbl : Table) (fs : List String) (n : Nat) :
    ∀ regions st, storeTailAtLeast st n → dictRefsAtLeast regions n = true →
      ∀ st2 chs ws, heapProcessRegions tbl fs st regions = .ok (st2, chs, ws) →
        (∀ j, j < n → st2.getD j [] = st.getD j []) ∧ storeTailAtLeast st2 n := by
  intro regions
  induction regions with
  | nil =>
    intro st htail hrefs st2 chs ws h
    simp only [heapProcessRegions, Except.ok.injEq, Prod.mk.injEq] at h
    obtain ⟨h1, -, -⟩ := h
    subst h1
    exact ⟨fun j _ => rfl, htail⟩
  | cons p rest ih =>
    obtain ⟨rn, rv⟩ := p
    intro st htail hrefs st2 chs ws h
    have hrefs1 : refsAtLeast rv n = true := by
      rw [dictRefsAtLeast, List.all_cons, Bool.and_eq_true] at hrefs
      exact hrefs.1
    have hrefs2 : dictRefsAtLeast rest n = true := by
      rw [dictRefsAtLeast, List.all_cons, Bool.and_eq_true] at hrefs
      exact hrefs.2
    cases rv with
    | ref c =>
      have hc : n ≤ c := by simpa [refsAtLeast] using hrefs1
      simp only [heapProcessRegions] at h
      set rc := st.getD c [] with hrc
      set r := processRegion HVal.num tbl rn rc fs with hrdef
      have hrcall : ∀ kv ∈ rc, refsAtLeast kv.2 n = true := by
        by_cases hlen : c < st.length
        · have hmem : rc ∈ st.drop n := getD_mem_drop st c n [] hc hlen
          have := htail rc hmem
          rw [dictRefsAtLeast, List.all_eq_true] at this
          exact fun kv hkv => this kv hkv
        · rw [hrc, getD_of_length_le st c [] (by omega)]
          intro kv hkv
          cases hkv
      have hr1 : ∀ kv ∈ r.1, refsAtLeast kv.2 n = true :=
        foldl_applyField_all HVal.num (fun x => refsAtLeast x n) (fun _ => rfl)
          tbl rn fs (rc, [], []) hrcall
      have htail2 : storeTailAtLeast (st.set c r.1) n := by
        intro d hd
        rw [List.drop_set] at hd
        rw [if_neg (by omega)] at hd
        rcases List.mem_or_eq_of_mem_set hd with hd1 | hd2
        · exact htail d hd1
        · subst hd2
          rw [dictRefsAtLeast, List.all_eq_true]
          exact fun kv hkv => hr1 kv hkv
      cases hrec : heapProcessRegions tbl fs (st.set c r.1) rest with
      | error e => rw [hrec] at h; cases h
      | ok triple =>
        obtain ⟨st3, chs1, ws1⟩ := triple
        rw [hrec] at h
        simp only [Except.ok.injEq, Prod.mk.injEq] at h
        obtain ⟨h1, -, -⟩ := h
        subst h1
        obtain ⟨hframe, htail3⟩ := ih (st.set c r.1) htail2 hrefs2 st3 chs1 ws1 hrec
        refine ⟨?_, htail3⟩
        intro j hj
        rw [hframe j hj, getD_set_ne st c j r.1 [] (by omega)]
    | arr es =>
      simp only [heapProcessRegions] at h
      cases hw : processFieldsNoMapping tbl rn (hvalNonMappingIn (HVal.arr es)) fs with
      | error e => rw [hw] at h; cases h
      | ok wsr =>
        simp only [hw] at h
        cases hrec : heapProcessRegions tbl fs st rest with
        | error e => rw [hrec] at h; cases h
        | ok triple =>
          obtain ⟨st3, chs1, ws1⟩ := triple
          rw [hrec] at h
          simp only [Except.ok.injEq, Prod.mk.injEq] at h
          obtain ⟨h1, -, -⟩ := h
          subst h1
          exact ih st htail hrefs2 st3 chs1 ws1 hrec
    | num q =>
      simp only [heapProcessRegions] at h
      cases hw : processFieldsNoMapping tbl rn (hvalNonMappingIn (HVal.num q)) fs with
      | error e => rw [hw] at h; cases h
      | ok wsr =>
        simp only [hw] at h
        cases hrec : heapProcessRegions tbl fs st rest with
        | error e => rw [hrec] at h; cases h
        | ok triple =>
          obtain ⟨st3, chs1, ws1⟩ := triple
          rw [hrec] at h
          simp only [Except.ok.injEq, Prod.mk.injEq] at h
          obtain ⟨h1, -, -⟩ := h
          subst h1
          exact ih st htail hrefs2 st3 chs1 ws1 hrec
    | str s =>
      simp only [heapProcessRegions] at h
      cases hw : processFieldsNoMapping tbl rn (hvalNonMappingIn (HVal.str s)) fs with
      | error e => rw [hw] at h; cases h
      | ok wsr =>
        simp only [hw] at h
        cases hrec : heapProcessRegions tbl fs st rest with
        | error e => rw [hrec] at h; cases h
        | ok triple =>
          obtain ⟨st3, chs1, ws1⟩ := triple
          rw [hrec] at h
          simp only [Except.ok.injEq, Prod.mk.injEq] at h
          obtain ⟨h1, -, -⟩ := h
          subst h1
          exact ih st htail hrefs2 st3 chs1 ws1 hrec
    | bool b =>
      simp only [heapProcessRegions] at h
      cases hw : processFieldsNoMapping tbl rn (hvalNonMappingIn (HVal.bool b)) fs with
      | error e => rw [hw] at h; cases h
      | ok wsr =>
        simp only [hw] at h
        cases hrec : heapProcessRegions tbl fs st rest with
        | error e => rw [hrec] at h; cases h
        | ok triple =>
          obtain ⟨st3, chs1, ws1⟩ := triple
          rw [hrec] at h
          simp only [Except.ok.injEq, Prod.mk.injEq] at h
          obtain ⟨h1, -, -⟩ := h
          subst h1
          exact ih st htail hrefs2 st3 chs1 ws1 hrec
    | null =>
      simp only [heapProcessRegions] at h
      cases hw : processFieldsNoMapping tbl rn (hvalNonMappingIn (HVal.null)) fs with
      | error e => rw [hw] at h; cases h
      | ok wsr =>
        simp only [hw] at h
        cases hrec : heapProcessRegions tbl fs st rest with
        | error e => rw [hrec] at h; cases h
        | ok triple =>
          obtain ⟨st3, chs1, ws1⟩ := triple
          rw [hrec] at h
          simp only [Except.ok.injEq, Prod.mk.injEq] at h
          obtain ⟨h1, -, -⟩ := h
          subst h1
          exact ih st htail hrefs2 st3 chs1 ws1 hrec

/-- C2: the merge never mutates the original document.  In the object-store
embedding: if the store is closed below its length and the input document
only references those cells, then after a successful run every original cell
is unchanged, reading the original root yields the same tree as before at
every fuel, and the returned document value references only freshly
allocated cells (it is a separate deep copy; only that copy was written). -/
theorem claim_C2 (st : Store) (config : HVal) (calibration_data : Table)
    (calibration_fields : List String) (fuel : Nat)
    (hclosed : storeClosedBelow st st.length = true)
    (hroot : refsBelow config st.length = true)
    (st2 : Store) (v2 : HVal) (chs : List (ChangeRec HVal)) (ws : List MergeWarning)
    (h : heapUpdateConfig fuel st config calibration_data calibration_fields
      = .ok (st2, v2, chs, ws)) :
    (∀ j, j < st.length → st2.getD j [] = st.getD j []) ∧
    (∀ rf, readVal st2 rf config = readVal st rf config) ∧
    refsAtLeast v2 st.length = true := by
  have htail0 : storeTailAtLeast st st.length := by
    intro d hd
    rw [List.drop_length] at hd
    cases hd
  obtain ⟨hpre, htail1, hrefs⟩ :=
    copyVal_refs_atLeast st st.length fuel st config (le_refl _) htail0
  obtain ⟨ext, hext⟩ := hpre
  have hframe1 : ∀ j, j < st.length →
      (copyVal st fuel st config).1.getD j [] = st.getD j [] := by
    intro j hj
    rw [← hext]
    exact getD_append_left st ext j [] hj
  have hdict : ∀ x, st.length ≤ x →
      dictRefsAtLeast ((copyVal st fuel st config).1.getD x []) st.length = true := by
    intro x hx
    by_cases hlen : x < (copyVal st fuel st config).1.length
    · exact htail1 _ (getD_mem_drop _ x st.length [] hx hlen)
    · rw [getD_of_length_le _ x [] (by omega)]
      rfl
  simp only [heapUpdateConfig] at h
  cases hv : (copyVal st fuel st config).2 with
  | ref a =>
    simp only [hv] at h
    rw [hv] at hrefs
    have hna : st.length ≤ a := by simpa [refsAtLeast] using hrefs
    cases hg : getKey ((copyVal st fuel st config).1.getD a []) "regions" with
    | none =>
      simp only [hg, Except.ok.injEq, Prod.mk.injEq] at h
      obtain ⟨h1, h2, -, -⟩ := h
      subst h1
      refine ⟨hframe1, ?_, ?_⟩
      · intro rf
        exact readVal_frame st.length st _ hclosed hframe1 rf config hroot
      · rw [← h2]
        exact hrefs
    | some v =>
      cases v with
      | ref b =>
        simp only [hg] at h
        have hb : st.length ≤ b := by
          have hmem := getKey_mem _ _ _ hg
          have hda := hdict a hna
          rw [dictRefsAtLeast, List.all_eq_true] at hda
          simpa [refsAtLeast] using hda _ hmem
        cases hrec : heapProcessRegions calibration_data calibration_fields
            (copyVal st fuel st config).1
            ((copyVal st fuel st config).1.getD b []) with
        | error e => rw [hrec] at h; cases h
        | ok triple =>
          obtain ⟨st3, chs1, ws1⟩ := triple
          rw [hrec] at h
          simp only [Except.ok.injEq, Prod.mk.injEq] at h
          obtain ⟨h1, h2, -, -⟩ := h
          subst h1
          obtain ⟨hframe2, -⟩ := heapProcessRegions_frame calibration_data
            calibration_fields st.length _ _ htail1 (hdict b hb) st3 chs1 ws1 hrec
          have hframe : ∀ j, j < st.length → st3.getD j [] = st.getD j [] := by
            intro j hj
            rw [hframe2 j hj, hframe1 j hj]
          refine ⟨hframe, ?_, ?_⟩
          · intro rf
            exact readVal_frame st.length st _ hclosed hframe rf config hroot
          · rw [← h2]
            exact hrefs
      | arr es => simp only [hg] at h; cases h
      | num q => simp only [hg] at h; cases h
      | str s => simp only [hg] at h; cases h
      | bool b => simp only [hg] at h; cases h
      | null => simp only [hg] at h; cases h
  | arr vs =>
    simp only [hv] at h
    rw [hv] at hrefs
    by_cases hc : pyInHList vs "regions"
    · rw [if_pos hc] at h; cases h
    · rw [if_neg hc] at h
      simp only [Except.ok.injEq, Prod.mk.injEq] at h
      obtain ⟨h1, h2, -, -⟩ := h
      subst h1
      refine ⟨hframe1, ?_, ?_⟩
      · intro rf
        exact readVal_frame st.length st _ hclosed hframe1 rf config hroot
      · rw [← h2]
        exact hrefs
  | num q => simp only [hv] at h; cases h
  | str s =>
    simp only [hv] at h
    rw [hv] at hrefs
    by_cases hc : pyStrContains s "regions"
    · rw [if_pos hc] at h; cases h
    · rw [if_neg hc] at h
      simp only [Except.ok.injEq, Prod.mk.injEq] at h
      obtain ⟨h1, h2, -, -⟩ := h
      subst h1
      refine ⟨hframe1, ?_, ?_⟩
      · intro rf
        exact readVal_frame st.length st _ hclosed hframe1 rf config hroot
      · rw [← h2]
        exact hrefs
  | bool b => simp only [hv] at h; cases h
  | null => simp only [hv] at h; cases h

/-- C2 witness: a one-cell store whose dict survives a run untouched; the
returned document is the freshly allocated copy at address 1. -/
theorem claim_C2_witness :
    ([[("keep", HVal.num 1)], [("keep", HVal.num 1)]] : Store).getD 0 []
      = ([[("keep", HVal.num 1)]] : Store).getD 0 [] ∧
    readVal [[("keep", HVal.num 1)], [("keep", HVal.num 1)]] 2 (HVal.ref 0)
      = readVal [[("keep", HVal.num 1)]] 2 (HVal.ref 0) ∧
    refsAtLeast (HVal.ref 1) 1 = true := by
  have h := claim_C2 [[("keep", HVal.num 1)]] (HVal.ref 0) [("f", [("A", 5)])] ["f"] 5
    (by simp [storeClosedBelow, dictRefsBelow, refsBelow])
    (by simp [refsBelow])
    [[("keep", HVal.num 1)], [("keep", HVal.num 1)]] (HVal.ref 1) [] [.noRegions]
    (by simp [heapUpdateConfig, copyVal, copyDict, getKey])
  exact ⟨h.1 0 (by decide), h.2.1 2, h.2.2⟩
